import Mathlib

/-!
# Module instance identity and diagnostics (`internal/hcl/module.go`)

A shallow embedding of `Module.Index`, `Module.Key`, `NewMissingVarsWarning`
and `joinQuotes`, together with the parts of the Go standard library they
call (`regexp.FindStringSubmatch`, `strconv.ParseInt`, `strconv.Quote`,
`strings.Join`). The loader that links modules into a tree is outside
`module.go` and is modelled from the specification.

Conventions of the embedding:
* a Go `string` is a Lean `String`; only valid UTF-8 texts are covered, and
  offsets count runes rather than bytes;
* a Go pointer result (`*int64`, `*string`) is an `Option`;
* a run-time panic is the `Outcome.panicked` constructor;
* `int64` / `uint64` values are `Int` / `Nat` with explicit wrap-around where
  the Go code can overflow.
-/

namespace Hcl

/-! ## Outcomes -/

/-- Result of running a Go function that may panic. -/
inductive Outcome (α : Type) where
  | panicked : Outcome α
  | ret (a : α) : Outcome α
deriving DecidableEq, Repr

/-! ## `regexp`: a backtracking matcher with leftmost-first semantics -/

/-- One-rune matchers of a compiled pattern. -/
inductive RuneClass where
  /-- A literal rune, such as the escaped bracket in the patterns below. -/
  | rune (c : Char)
  /-- The Perl class `\d`: ASCII `0`..`9` only. -/
  | digit
  /-- The dot without the `s` flag: any rune except the line feed. -/
  | anyNotNL
deriving DecidableEq, Repr

/-- Whether a one-rune matcher accepts the rune `x`. -/
def RuneClass.accepts : RuneClass → Char → Bool
  | .rune c, x => decide (x = c)
  | .digit, x => decide (48 ≤ x.toNat ∧ x.toNat ≤ 57)
  | .anyNotNL, x => decide (x ≠ '\n')

/-- Instructions of a pattern: a sequence of one-rune matchers, greedy
repetitions of one-rune matchers, capture marks and the end-of-text assertion. -/
inductive Inst where
  | one (cls : RuneClass)
  /-- Greedy `x*`. -/
  | star (cls : RuneClass)
  /-- Greedy `x+`. -/
  | plus (cls : RuneClass)
  /-- Record the current offset in capture slot `slot`. -/
  | cap (slot : Nat)
  /-- The assertion `$` without the `m` flag: end of text. -/
  | endText
deriving DecidableEq, Repr

/-- Capture slots: slot `2*i` is the start and slot `2*i+1` the end of group `i`. -/
abbrev Slots := List (Option Nat)

/-- Greedy repetition: take as many runes of `cls` as possible, and give runes
back one at a time while the continuation `k` fails. -/
def starLoop (cls : RuneClass) (k : List Char → Nat → Option Slots) :
    List Char → Nat → Option Slots
  | [], pos => k [] pos
  | c :: s, pos =>
    if cls.accepts c then
      match starLoop cls k s (pos + 1) with
      | some r => some r
      | none => k (c :: s) pos
    else k (c :: s) pos

/-- Match the instruction sequence at the current offset `pos`, the rest of the
text being `s`. The first successful alternative of the backtracking search wins. -/
def run : List Inst → List Char → Nat → Slots → Option Slots
  | [], _, _, slots => some slots
  | .one cls :: prog, s, pos, slots =>
    match s with
    | c :: s' => if cls.accepts c then run prog s' (pos + 1) slots else none
    | [] => none
  | .star cls :: prog, s, pos, slots =>
    starLoop cls (fun s' pos' => run prog s' pos' slots) s pos
  | .plus cls :: prog, s, pos, slots =>
    match s with
    | c :: s' =>
      if cls.accepts c then
        starLoop cls (fun t pos' => run prog t pos' slots) s' (pos + 1)
      else none
    | [] => none
  | .cap n :: prog, s, pos, slots => run prog s pos (slots.set n (some pos))
  | .endText :: prog, s, pos, slots =>
    match s with
    | [] => run prog [] pos slots
    | _ :: _ => none

/-- Unanchored search: the match that begins as early as possible. -/
def search (prog : List Inst) (slots : Slots) : List Char → Nat → Option Slots
  | [], pos => run prog [] pos slots
  | c :: s, pos =>
    match run prog (c :: s) pos slots with
    | some r => some r
    | none => search prog slots s (pos + 1)

/-- A compiled pattern: its instructions and its number of parenthesised groups. -/
structure Regexp where
  prog : List Inst
  numSubexp : Nat
deriving Repr

/-- Text of group `i` under `slots`; a group that did not take part is empty. -/
def submatch (text : List Char) (slots : Slots) (i : Nat) : String :=
  match slots.getD (2 * i) none, slots.getD (2 * i + 1) none with
  | some a, some b => String.mk ((text.drop a).take (b - a))
  | _, _ => ""

/-- Go `(*Regexp).FindStringSubmatch`: the leftmost match and its groups, or the
empty (nil) slice when the text has no match. -/
def Regexp.FindStringSubmatch (re : Regexp) (s : String) : List String :=
  match search re.prog (List.replicate (2 * (re.numSubexp + 1)) none) s.data 0 with
  | none => []
  | some slots => (List.range (re.numSubexp + 1)).map (submatch s.data slots)

/-- Modelled from the spec: `countRegex` is declared outside `module.go`; it
recognises a trailing `[` digits `]`, that is the pattern `\[(\d+)\]$`. -/
def countRegex : Regexp :=
  { prog := [.cap 0, .one (.rune '['), .cap 2, .plus .digit, .cap 3,
             .one (.rune ']'), .endText, .cap 1],
    numSubexp := 1 }

/-- Modelled from the spec: `foreachRegex` is declared outside `module.go`; it
recognises `["` any-characters `"]` anchored at the end of the name, that is the
pattern `\["(.*)"\]$`. -/
def foreachRegex : Regexp :=
  { prog := [.cap 0, .one (.rune '['), .one (.rune '"'), .cap 2, .star .anyNotNL,
             .cap 3, .one (.rune '"'), .one (.rune ']'), .endText, .cap 1],
    numSubexp := 1 }

/-! ## `strconv.ParseInt` -/

/-- The two errors of `strconv` number parsing that can arise here, and the
error for a base outside `2..36`. -/
inductive NumError where
  | ErrSyntax : NumError
  | ErrRange : NumError
  | ErrBase : NumError
deriving DecidableEq, Repr

/-- Go `lower(c)`: `c | ('x' - 'X')`. -/
def lower (c : Nat) : Nat := c ||| 0x20

/-- The digit loop of `strconv.ParseUint` over the bytes of the numeral. `n` is
the `uint64` accumulator. A byte of a multi-byte rune is at least `0x80` and
takes the `default` branch, as the rune's code does here. -/
def parseUintLoop (base cutoff maxVal : Nat) : List Char → Nat → Nat × Option NumError
  | [], n => (n, none)
  | c :: cs, n =>
    let b := c.toNat
    if 48 ≤ b ∧ b ≤ 57 then
      let d := b - 48
      if d ≥ base then (0, some .ErrSyntax)
      else if n ≥ cutoff then (maxVal, some .ErrRange)
      else
        let n0 := (n * base) % 2 ^ 64
        let n1 := (n0 + d) % 2 ^ 64
        if n1 < n0 ∨ n1 > maxVal then (maxVal, some .ErrRange)
        else parseUintLoop base cutoff maxVal cs n1
    else if 97 ≤ lower b ∧ lower b ≤ 122 then
      let d := lower b - 97 + 10
      if d ≥ base then (0, some .ErrSyntax)
      else if n ≥ cutoff then (maxVal, some .ErrRange)
      else
        let n0 := (n * base) % 2 ^ 64
        let n1 := (n0 + d) % 2 ^ 64
        if n1 < n0 ∨ n1 > maxVal then (maxVal, some .ErrRange)
        else parseUintLoop base cutoff maxVal cs n1
    else (0, some .ErrSyntax)

/-- Go `strconv.ParseUint(s, base, bitSize)` for an explicit base `2..36` and
`bitSize` in `0..64`. The prefix-detecting base `0` is not embedded (the only
call passes base `10`). -/
def ParseUint (s : List Char) (base bitSize : Nat) : Nat × Option NumError :=
  if s = [] then (0, some .ErrSyntax)
  else if ¬ (2 ≤ base ∧ base ≤ 36) then (0, some .ErrBase)
  else
    let bitSize := if bitSize = 0 then 64 else bitSize
    let cutoff := (2 ^ 64 - 1) / base + 1
    let maxVal := 2 ^ bitSize - 1
    parseUintLoop base cutoff maxVal s 0

/-- Go `strconv.ParseInt(s, base, bitSize)`: the value and the error. On a range
error the value is the nearest bound of the signed type. -/
def ParseInt (s : String) (base bitSize : Nat) : Int × Option NumError :=
  match s.data with
  | [] => (0, some .ErrSyntax)
  | c :: cs =>
    let neg := decide (c = '-')
    let digits := if c = '+' ∨ c = '-' then cs else c :: cs
    match ParseUint digits base bitSize with
    | (_, some .ErrSyntax) => (0, some .ErrSyntax)
    | (_, some .ErrBase) => (0, some .ErrBase)
    | (un, _) =>
      let bitSize := if bitSize = 0 then 64 else bitSize
      let cutoff := 2 ^ (bitSize - 1)
      if ¬ neg ∧ un ≥ cutoff then (Int.ofNat (cutoff - 1), some .ErrRange)
      else if neg ∧ un > cutoff then (- Int.ofNat cutoff, some .ErrRange)
      else if neg then (- Int.ofNat un, none) else (Int.ofNat un, none)

/-! ## The module record -/

/-- A Go pointer, as an address. -/
abbrev Ptr := Nat

/-- Go `WarningCode`. -/
abbrev WarningCode := Int

/-- The constant `WarningMissingVars = iota + 1`. -/
def WarningMissingVars : WarningCode := 0 + 1

/-- Values stored in the untyped `Warning.Data` field. -/
inductive Payload where
  | nil : Payload
  | strings (xs : List String) : Payload
deriving DecidableEq, Repr

/-- Go `Warning`. -/
structure Warning where
  Code : WarningCode
  Title : String
  Data : Payload
  FriendlyMessage : String
deriving DecidableEq, Repr

/-- Go `Module`. `Blocks` is a slice of block pointers; child and parent links
are pointers. -/
structure Module where
  Name : String
  Source : String
  Blocks : List Ptr
  RawBlocks : List Ptr
  RootPath : String
  ModulePath : String
  Modules : List Ptr
  Parent : Option Ptr
  Warnings : List Warning
  HasChanges : Bool
  TerraformVarsPaths : List String
  ModuleSuffix : String
  SourceURL : String
deriving DecidableEq, Repr

/-- Go `(*Module).Index`: the count index read from the name, `none` for the nil
pointer. The parse error is discarded, as in the source. Indexing `matches[1]`
panics when out of range. -/
def Module.Index (m : Module) : Outcome (Option Int) :=
  let matches_ := countRegex.FindStringSubmatch m.Name
  if matches_.length > 0 then
    match matches_.get? 1 with
    | none => .panicked
    | some numeral =>
      let (i, _) := ParseInt numeral 10 64
      .ret (some i)
  else .ret none

/-- Go `(*Module).Key`: the for-each key read from the name, `none` for the nil
pointer. Indexing `matches[1]` panics when out of range. -/
def Module.Key (m : Module) : Outcome (Option String) :=
  let matches_ := foreachRegex.FindStringSubmatch m.Name
  if matches_.length > 0 then
    match matches_.get? 1 with
    | none => .panicked
    | some key => .ret (some key)
  else .ret none

/-- A module with the given name and zero values in every other field. -/
def named (name : String) : Module :=
  { Name := name, Source := "", Blocks := [], RawBlocks := [], RootPath := "",
    ModulePath := "", Modules := [], Parent := none, Warnings := [],
    HasChanges := false, TerraformVarsPaths := [], ModuleSuffix := "", SourceURL := "" }

/-- The receiver after a call of `(*Module).Index`, next to the result: the body
assigns to no field. -/
def Module.callIndex (m : Module) : Outcome (Option Int) × Module := (m.Index, m)

/-- The receiver after a call of `(*Module).Key`, next to the result: the body
assigns to no field. -/
def Module.callKey (m : Module) : Outcome (Option String) × Module := (m.Key, m)

/-! ## `strconv.Quote`, `strings.Join` and the warning factory -/

/-- Go `strconv.IsPrint`. Runes up to U+00FF are decided by the fast path of the
Go function; for the others the answer comes from the Unicode tables of `strconv`,
which are data outside this repository and are taken as the parameter `wide`. -/
def IsPrint (wide : Nat → Bool) (r : Char) : Bool :=
  if r.toNat ≤ 0xFF then
    if 0x20 ≤ r.toNat ∧ r.toNat ≤ 0x7E then true
    else if 0xA1 ≤ r.toNat ∧ r.toNat ≤ 0xFF then decide (r.toNat ≠ 0xAD)
    else false
  else wide r.toNat

/-- Go `lowerhex[n]` for `n < 16`. -/
def lowerhex (n : Nat) : Char := "0123456789abcdef".data.getD n '0'

/-- The hexadecimal digits of `r` at the given shifts, most significant first. -/
def hexAt (r : Nat) (shifts : List Nat) : List Char :=
  shifts.map (fun sh => lowerhex ((r >>> sh) &&& 0xF))

/-- Go `appendEscapedRune(buf, r, quote, ASCIIonly, graphicOnly)` at the arguments
`Quote` passes: the double quote, `false`, `false`. A Lean `Char` is always a valid
rune, so the branch for invalid runes does not arise. -/
def appendEscapedRune (wide : Nat → Bool) (buf : List Char) (r : Char) : List Char :=
  if r = '"' ∨ r = '\\' then buf ++ ['\\', r]
  else if IsPrint wide r then buf ++ [r]
  else if r.toNat = 0x07 then buf ++ ['\\', 'a']
  else if r.toNat = 0x08 then buf ++ ['\\', 'b']
  else if r.toNat = 0x0C then buf ++ ['\\', 'f']
  else if r.toNat = 0x0A then buf ++ ['\\', 'n']
  else if r.toNat = 0x0D then buf ++ ['\\', 'r']
  else if r.toNat = 0x09 then buf ++ ['\\', 't']
  else if r.toNat = 0x0B then buf ++ ['\\', 'v']
  else if r.toNat < 0x20 ∨ r.toNat = 0x7F then buf ++ '\\' :: 'x' :: hexAt r.toNat [4, 0]
  else if r.toNat < 0x10000 then buf ++ '\\' :: 'u' :: hexAt r.toNat [12, 8, 4, 0]
  else buf ++ '\\' :: 'U' :: hexAt r.toNat [28, 24, 20, 16, 12, 8, 4, 0]

/-- Go `appendQuotedWith(buf, s, '"', false, false)`: the opening quote, every rune
escaped in turn, the closing quote. The text is valid UTF-8, so the branch for an
undecodable byte does not arise. -/
def appendQuotedWith (wide : Nat → Bool) (buf : List Char) (s : String) : List Char :=
  (s.data.foldl (appendEscapedRune wide) (buf ++ ['"'])) ++ ['"']

/-- Go `strconv.Quote`, which is what `fmt.Sprintf("%q", s)` returns for a string. -/
def Quote (wide : Nat → Bool) (s : String) : String :=
  String.mk (appendQuotedWith wide [] s)

/-- Go `strings.Join`. The length-overflow panics of the Go function need a result
longer than the largest `int` and are left out. -/
def Join : List String → String → String
  | [], _ => ""
  | [e], _ => e
  | e :: rest, sep => rest.foldl (fun b s => b ++ sep ++ s) e

/-- Go `joinQuotes`: every element through `%q`, joined with a comma and a space. -/
def joinQuotes (wide : Nat → Bool) (elems : List String) : String :=
  let quoted := elems.map (fun elem => Quote wide elem)
  Join quoted ", "

/-- Go `NewMissingVarsWarning`. The format `%s. %s` places the two texts around a
full stop and a space. -/
def NewMissingVarsWarning (wide : Nat → Bool) (vars : List String) : Warning :=
  { Code := WarningMissingVars,
    Title := "Missing Terraform vars",
    Data := .strings vars,
    FriendlyMessage :=
      "Input values were not provided for following Terraform variables: " ++
        joinQuotes wide vars ++ ". " ++
        "Use --terraform-var-file or --terraform-var to specify them." }

/-- The name list as the specification words it: every element between two double
quotes, its content unchanged, the elements separated by a comma and a space. -/
def joinQuotesSpec (elems : List String) : String :=
  String.intercalate ", " (elems.map (fun elem => "\"" ++ elem ++ "\""))

/-! ## The module tree and the loader that builds it -/

/-- Go `ModuleCall`. `Definition` and `Module` are pointers. -/
structure ModuleCall where
  Name : String
  Path : String
  Definition : Option Ptr
  Module : Option Ptr
deriving DecidableEq, Repr

/-- The modules allocated so far: the pointer `p` is the module at index `p`. -/
abbrev Heap := List Module

/-- Write through the pointer `p`: the module there becomes `f` of it. -/
def Heap.update (h : Heap) (p : Ptr) (f : Module → Module) : Heap :=
  match h[p]? with
  | some m => h.set p (f m)
  | none => h

/-- The two link updates of one resolved call: the child's `Parent` is set to the
current module, and the child is appended to the current module's `Modules`. -/
def attach (h : Heap) (cur child : Ptr) : Heap :=
  (h.update child (fun m => { m with Parent := some cur })).update cur
    (fun m => { m with Modules := m.Modules ++ [child] })

/-- The state of the loader: the modules, and the module calls resolved so far. -/
structure Loader where
  heap : Heap
  calls : List ModuleCall
deriving DecidableEq, Repr

/-- Modelled from the spec: the loader that builds the tree is outside `module.go`.
Step (a) of the construction: it creates a `Module` for the project root with
`Parent = nil`. The root is the module at address `0`; a module just created has
no children yet. -/
def newRoot (data : Module) : Loader :=
  { heap := [{ data with Parent := none, Modules := [] }], calls := [] }

/-- One module call discovered while the blocks of the module `cur` are processed,
with the module its target resolves to. -/
inductive Discovered where
  /-- The child module is created now, from `data`. -/
  | created (cur : Ptr) (call : ModuleCall) (data : Module)
  /-- The child module `child` exists already and is located. -/
  | located (cur : Ptr) (call : ModuleCall) (child : Ptr)
deriving DecidableEq, Repr

/-- Modelled from the spec: step (b) of the construction, which is outside
`module.go`. For a module call discovered while processing a module's blocks the
loader resolves the call's target, creates or locates the corresponding child
`Module`, sets `ModuleCall.Module` to it, sets the child's `Parent` to the current
module, and appends the child to the current module's `Modules`. A created child
takes the next free address; a located child is any module that exists. The step
is refused only when a module it names does not exist. -/
def resolveCall (t : Loader) : Discovered → Option Loader
  | .created cur call data =>
    if cur < t.heap.length then
      let child := t.heap.length
      some { heap := attach (t.heap ++ [{ data with Parent := none, Modules := [] }]) cur child,
             calls := t.calls ++ [{ call with Module := some child }] }
    else none
  | .located cur call child =>
    if cur < t.heap.length ∧ child < t.heap.length then
      some { heap := attach t.heap cur child,
             calls := t.calls ++ [{ call with Module := some child }] }
    else none

/-- The loader run over the calls it discovers, in order. -/
def runLoader (t : Loader) : List Discovered → Option Loader
  | [] => some t
  | d :: ds =>
    match resolveCall t d with
    | some t' => runLoader t' ds
    | none => none

/-- Modelled from the spec: a module tree produced by construction is what the
loader, which is outside `module.go`, reaches from a fresh root by resolving the
discovered calls. -/
def construct (root : Module) (ds : List Discovered) : Option Loader :=
  runLoader (newRoot root) ds

/-- Whether the module `child` is listed in the `Modules` of no module other
than `cur`. -/
def soleParent (h : Heap) (cur child : Ptr) : Bool :=
  (List.range h.length).all (fun p =>
    match h[p]? with
    | some m => decide (child ∈ m.Modules → p = cur)
    | none => true)

/-- Whether a discovered call keeps to the discipline under which the tree
invariant is kept: a located child is not the root and is listed under no module
other than the current one. A created child always does. -/
def stepOk (t : Loader) : Discovered → Bool
  | .created _ _ _ => true
  | .located cur _ child => decide (child ≠ 0) && soleParent t.heap cur child

/-- Whether every call of a run keeps to the discipline, each judged in the state
the loader has reached when it resolves the call. -/
def disciplined (t : Loader) : List Discovered → Bool
  | [] => true
  | d :: ds =>
    stepOk t d &&
      match resolveCall t d with
      | some t' => disciplined t' ds
      | none => true

/-- The tree invariant: every child listed in a module's `Modules` exists and has
that module as its `Parent`, and the root has no `Parent`. -/
def TreeInvariant (h : Heap) : Prop :=
  (∀ (p : Ptr) (parent : Module), h[p]? = some parent → ∀ c ∈ parent.Modules,
      ∃ child : Module, h[c]? = some child ∧ child.Parent = some p) ∧
    (∃ root : Module, h[0]? = some root ∧ root.Parent = none)

/-! ## Reading an escaped rune back -/

/-- The value of a lower-case hexadecimal digit; `16` for any other rune. -/
def hexVal (c : Char) : Nat := "0123456789abcdef".data.indexOf c

/-- The number written by hexadecimal digits, most significant first. -/
def hexNum (cs : List Char) : Nat := cs.foldl (fun n c => 16 * n + hexVal c) 0

/-- Reads one rune back from the front of an escaped text, in the manner of Go
`strconv.UnquoteChar`: the inverse of `appendEscapedRune`, used to show that the
rendering loses nothing. A text that begins with an unescaped double quote holds
no rune. -/
def unescapeRune : List Char → Option (Char × List Char)
  | [] => none
  | c :: t =>
    if c = '"' then none
    else if c ≠ '\\' then some (c, t)
    else
      match t with
      | [] => none
      | e :: u =>
        if e = 'a' then some (Char.ofNat 0x07, u)
        else if e = 'b' then some (Char.ofNat 0x08, u)
        else if e = 'f' then some (Char.ofNat 0x0C, u)
        else if e = 'n' then some (Char.ofNat 0x0A, u)
        else if e = 'r' then some (Char.ofNat 0x0D, u)
        else if e = 't' then some (Char.ofNat 0x09, u)
        else if e = 'v' then some (Char.ofNat 0x0B, u)
        else if e = 'x' then
          match u with
          | h1 :: h2 :: v => some (Char.ofNat (hexNum [h1, h2]), v)
          | _ => none
        else if e = 'u' then
          match u with
          | h1 :: h2 :: h3 :: h4 :: v => some (Char.ofNat (hexNum [h1, h2, h3, h4]), v)
          | _ => none
        else if e = 'U' then
          match u with
          | h1 :: h2 :: h3 :: h4 :: h5 :: h6 :: h7 :: h8 :: v =>
            some (Char.ofNat (hexNum [h1, h2, h3, h4, h5, h6, h7, h8]), v)
          | _ => none
        else some (e, u)

/-- Slots after a successful match of a one-group pattern. -/
def matched (slots : Slots) (b0 e0 b1 e1 : Nat) : Slots :=
  (((slots.set 0 (some b0)).set 2 (some b1)).set 3 (some e1)).set 1 (some e0)

/-! ## Names of repeated instances, as the specification writes them -/

/-- The ASCII digit of a decimal digit value. -/
def digitChar (d : Fin 10) : Char := Char.ofNat (48 + d.val)

/-- A decimal numeral, most significant digit first; leading zeros are allowed. -/
def numeral (ds : List (Fin 10)) : String := String.mk (ds.map digitChar)

/-- The number read from the digits `ds` after the digits already read gave `n`. -/
def decimalFrom (n : Nat) (ds : List (Fin 10)) : Nat :=
  ds.foldl (fun acc d => 10 * acc + d.val) n

/-- The number a decimal numeral denotes. -/
def decimalValue (ds : List (Fin 10)) : Nat := decimalFrom 0 ds

/-- Names of the form `base[N]`: a non-empty run of decimal digits in brackets at
the end of the name. -/
def CountForm (name : String) : Prop :=
  ∃ (base : String) (d : Fin 10) (ds : List (Fin 10)),
    name = base ++ "[" ++ numeral (d :: ds) ++ "]"

/-- Names of the form `base["k"]`. -/
def KeyForm (name : String) : Prop :=
  ∃ base k : String, name = base ++ "[\"" ++ k ++ "\"]"

/-! ## Facts about the matcher -/

theorem starLoop_some_split {cls : RuneClass} {k : List Char → Nat → Option Slots} :
    ∀ (s : List Char) (pos : Nat) (r : Slots), starLoop cls k s pos = some r →
      ∃ ds rest, s = ds ++ rest ∧ (∀ c ∈ ds, cls.accepts c = true) ∧
        k rest (pos + ds.length) = some r := by
  intro s
  induction s with
  | nil =>
    intro pos r h
    exact ⟨[], [], rfl, by simp, by simpa [starLoop] using h⟩
  | cons c s ih =>
    intro pos r h
    unfold starLoop at h
    by_cases hc : cls.accepts c = true
    · rw [if_pos hc] at h
      cases hrec : starLoop cls k s (pos + 1) with
      | some r' =>
        rw [hrec] at h
        obtain ⟨ds, rest, hs, hall, hk⟩ := ih (pos + 1) r' hrec
        refine ⟨c :: ds, rest, by simp [hs], ?_, ?_⟩
        · intro x hx
          rcases List.mem_cons.mp hx with rfl | hx
          · exact hc
          · exact hall x hx
        · have : pos + (c :: ds).length = pos + 1 + ds.length := by simp; omega
          rw [this, hk]
          simpa using h
      | none =>
        rw [hrec] at h
        exact ⟨[], c :: s, rfl, by simp, by simpa using h⟩
    · rw [if_neg hc] at h
      exact ⟨[], c :: s, rfl, by simp, by simpa using h⟩

theorem starLoop_append {cls : RuneClass} {k : List Char → Nat → Option Slots}
    (rest : List Char) (r : Slots) :
    ∀ (ds : List Char) (pos : Nat), (∀ c ∈ ds, cls.accepts c = true) →
      starLoop cls k rest (pos + ds.length) = some r →
      starLoop cls k (ds ++ rest) pos = some r := by
  intro ds
  induction ds with
  | nil => intro pos _ h; simpa using h
  | cons d ds ih =>
    intro pos hall h
    have hd : cls.accepts d = true := hall d (List.mem_cons_self _ _)
    have hrec : starLoop cls k (ds ++ rest) (pos + 1) = some r := by
      apply ih (pos + 1) (fun c hc => hall c (List.mem_cons_of_mem _ hc))
      have : pos + 1 + ds.length = pos + (d :: ds).length := by simp; omega
      rw [this]; exact h
    show starLoop cls k (d :: (ds ++ rest)) pos = some r
    unfold starLoop
    rw [if_pos hd, hrec]

theorem search_some_split {prog : List Inst} {slots : Slots} :
    ∀ (s : List Char) (pos : Nat) (r : Slots), search prog slots s pos = some r →
      ∃ pre t, s = pre ++ t ∧ run prog t (pos + pre.length) slots = some r := by
  intro s
  induction s with
  | nil =>
    intro pos r h
    exact ⟨[], [], rfl, by simpa [search] using h⟩
  | cons c s ih =>
    intro pos r h
    unfold search at h
    cases hrun : run prog (c :: s) pos slots with
    | some r' =>
      rw [hrun] at h
      exact ⟨[], c :: s, rfl, by simpa [hrun] using h⟩
    | none =>
      rw [hrun] at h
      obtain ⟨pre, t, hs, ht⟩ := ih (pos + 1) r h
      refine ⟨c :: pre, t, by simp [hs], ?_⟩
      have : pos + (c :: pre).length = pos + 1 + pre.length := by simp; omega
      rw [this]; exact ht

theorem search_hit {prog : List Inst} {slots : Slots} {s : List Char} {pos : Nat} {r : Slots}
    (h : run prog s pos slots = some r) : search prog slots s pos = some r := by
  cases s with
  | nil => simpa [search] using h
  | cons c s => unfold search; rw [h]

theorem search_skip {prog : List Inst} {slots : Slots} (s : List Char) :
    ∀ (pre : List Char) (pos : Nat),
      (∀ p1 p2, pre = p1 ++ p2 → p2 ≠ [] → ∀ q, run prog (p2 ++ s) q slots = none) →
      search prog slots (pre ++ s) pos = search prog slots s (pos + pre.length) := by
  intro pre
  induction pre with
  | nil => intro pos _; simp
  | cons c pre ih =>
    intro pos h
    have h0 : run prog (c :: (pre ++ s)) pos slots = none :=
      h [] (c :: pre) rfl (by simp) pos
    have step : search prog slots (c :: (pre ++ s)) pos =
        search prog slots (pre ++ s) (pos + 1) := by
      conv_lhs => unfold search
      rw [h0]
    show search prog slots (c :: (pre ++ s)) pos = _
    rw [step]
    have := ih (pos + 1) (fun p1 p2 hp hne q => h (c :: p1) p2 (by simp [hp]) hne q)
    have e : pos + 1 + pre.length = pos + (c :: pre).length := by
      simp only [List.length_cons]; omega
    rw [this, e]

theorem countTail_some (t : List Char) (p : Nat) (slots r : Slots) :
    run [.cap 3, .one (.rune ']'), .endText, .cap 1] t p slots = some r ↔
      t = [']'] ∧ r = (slots.set 3 (some p)).set 1 (some (p + 1)) := by
  match t with
  | [] => simp [run]
  | [c] =>
    simp only [run, RuneClass.accepts]
    by_cases hc : c = ']'
    · subst hc; simp [eq_comm]
    · simp [hc]
  | c :: c' :: t =>
    simp only [run, RuneClass.accepts]
    by_cases hc : c = ']' <;> simp [hc]

theorem count_run_cons (c d : Char) (s : List Char) (pos : Nat) (slots : Slots) :
    run countRegex.prog (c :: d :: s) pos slots =
      if (RuneClass.rune '[').accepts c = true then
        if RuneClass.digit.accepts d = true then
          starLoop .digit
            (fun t p => run [.cap 3, .one (.rune ']'), .endText, .cap 1] t p
              ((slots.set 0 (some pos)).set 2 (some (pos + 1)))) s (pos + 1 + 1)
        else none
      else none := rfl

theorem count_run_some {s : List Char} {pos : Nat} {slots r : Slots}
    (h : run countRegex.prog s pos slots = some r) :
    ∃ d ds, RuneClass.digit.accepts d = true ∧ (∀ c ∈ ds, RuneClass.digit.accepts c = true) ∧
      s = '[' :: d :: ds ++ [']'] ∧
      r = matched slots pos (pos + 3 + ds.length) (pos + 1) (pos + 2 + ds.length) := by
  match s with
  | [] => simp [countRegex, run] at h
  | [c] =>
    simp only [countRegex, run] at h
    split at h <;> simp at h
  | c :: d :: s =>
    rw [count_run_cons] at h
    by_cases hc : (RuneClass.rune '[').accepts c = true
    · rw [if_pos hc] at h
      by_cases hd : RuneClass.digit.accepts d = true
      · rw [if_pos hd] at h
        obtain ⟨ds, rest, hs, hall, hk⟩ := starLoop_some_split _ _ _ h
        rw [countTail_some] at hk
        obtain ⟨hrest, hr⟩ := hk
        refine ⟨d, ds, hd, hall, ?_, ?_⟩
        · simp [RuneClass.accepts] at hc
          simp [hc, hs, hrest]
        · rw [hr]; simp only [matched]
          have e1 : pos + 1 + 1 + ds.length = pos + 2 + ds.length := by omega
          have e2 : pos + 1 + 1 + ds.length + 1 = pos + 3 + ds.length := by omega
          rw [e2, e1]
      · rw [if_neg hd] at h; simp at h
    · rw [if_neg hc] at h; simp at h

theorem count_run_hit (d : Char) (ds : List Char) (pos : Nat) (slots : Slots)
    (hd : RuneClass.digit.accepts d = true) (hall : ∀ c ∈ ds, RuneClass.digit.accepts c = true) :
    run countRegex.prog ('[' :: d :: ds ++ [']']) pos slots =
      some (matched slots pos (pos + 3 + ds.length) (pos + 1) (pos + 2 + ds.length)) := by
  rw [List.cons_append, List.cons_append, count_run_cons]
  have hc : (RuneClass.rune '[').accepts '[' = true := by decide
  rw [if_pos hc, if_pos hd]
  apply starLoop_append _ _ ds _ hall
  unfold starLoop
  have hb : RuneClass.digit.accepts ']' = false := by decide
  simp only [hb]
  have e1 : pos + 1 + 1 + ds.length = pos + 2 + ds.length := by omega
  have e2 : pos + 2 + ds.length + 1 = pos + 3 + ds.length := by omega
  rw [e1]
  have := (countTail_some [']'] (pos + 2 + ds.length)
    ((slots.set 0 (some pos)).set 2 (some (pos + 1))) _).mpr ⟨rfl, rfl⟩
  simp only [Bool.false_eq_true, if_false]
  rw [this, e2, matched]

theorem foreachTail_some (t : List Char) (p : Nat) (slots r : Slots) :
    run [.cap 3, .one (.rune '"'), .one (.rune ']'), .endText, .cap 1] t p slots = some r ↔
      t = ['"', ']'] ∧ r = (slots.set 3 (some p)).set 1 (some (p + 1 + 1)) := by
  match t with
  | [] => simp [run]
  | [c] =>
    simp only [run, RuneClass.accepts]
    by_cases hc : c = '"' <;> simp [hc]
  | [c, c'] =>
    simp only [run, RuneClass.accepts]
    by_cases hc : c = '"'
    · by_cases hc' : c' = ']'
      · subst hc; subst hc'; simp [eq_comm]
      · simp [hc, hc']
    · simp [hc]
  | c :: c' :: c'' :: t =>
    simp only [run, RuneClass.accepts]
    by_cases hc : c = '"' <;> by_cases hc' : c' = ']' <;> simp [hc, hc']

theorem foreach_run_cons (c d : Char) (s : List Char) (pos : Nat) (slots : Slots) :
    run foreachRegex.prog (c :: d :: s) pos slots =
      if (RuneClass.rune '[').accepts c = true then
        if (RuneClass.rune '"').accepts d = true then
          starLoop .anyNotNL
            (fun t p => run [.cap 3, .one (.rune '"'), .one (.rune ']'), .endText, .cap 1] t p
              ((slots.set 0 (some pos)).set 2 (some (pos + 1 + 1)))) s (pos + 1 + 1)
        else none
      else none := rfl

theorem foreach_run_some {s : List Char} {pos : Nat} {slots r : Slots}
    (h : run foreachRegex.prog s pos slots = some r) :
    ∃ k, (∀ c ∈ k, RuneClass.anyNotNL.accepts c = true) ∧
      s = '[' :: '"' :: k ++ ['"', ']'] ∧
      r = matched slots pos (pos + 4 + k.length) (pos + 2) (pos + 2 + k.length) := by
  match s with
  | [] => simp [foreachRegex, run] at h
  | [c] =>
    simp only [foreachRegex, run] at h
    split at h <;> simp at h
  | c :: d :: s =>
    rw [foreach_run_cons] at h
    by_cases hc : (RuneClass.rune '[').accepts c = true
    · rw [if_pos hc] at h
      by_cases hd : (RuneClass.rune '"').accepts d = true
      · rw [if_pos hd] at h
        obtain ⟨k, rest, hs, hall, hk⟩ := starLoop_some_split _ _ _ h
        rw [foreachTail_some] at hk
        obtain ⟨hrest, hr⟩ := hk
        refine ⟨k, hall, ?_, ?_⟩
        · simp [RuneClass.accepts] at hc hd
          simp [hc, hd, hs, hrest]
        · rw [hr]; simp only [matched]
          have e1 : pos + 1 + 1 + k.length = pos + 2 + k.length := by omega
          have e2 : pos + 2 + k.length + 1 + 1 = pos + 4 + k.length := by omega
          rw [e1, e2]
      · rw [if_neg hd] at h; simp at h
    · rw [if_neg hc] at h; simp at h

theorem foreach_run_hit (k : List Char) (pos : Nat) (slots : Slots)
    (hall : ∀ c ∈ k, RuneClass.anyNotNL.accepts c = true) :
    run foreachRegex.prog ('[' :: '"' :: k ++ ['"', ']']) pos slots =
      some (matched slots pos (pos + 4 + k.length) (pos + 2) (pos + 2 + k.length)) := by
  rw [List.cons_append, List.cons_append, foreach_run_cons]
  have hc : (RuneClass.rune '[').accepts '[' = true := by decide
  have hd : (RuneClass.rune '"').accepts '"' = true := by decide
  rw [if_pos hc, if_pos hd]
  apply starLoop_append _ _ k _ hall
  have e1 : pos + 1 + 1 + k.length = pos + 2 + k.length := by omega
  have e2 : pos + 2 + k.length + 1 + 1 = pos + 4 + k.length := by omega
  rw [e1]
  simp only [starLoop, run, RuneClass.accepts, matched]
  have e3 : pos + (2 + (k.length + 2)) = pos + (4 + k.length) := by omega
  simp only [Nat.add_assoc]
  simp [e3]

/-! ## Facts about `strconv.ParseInt` on decimal numerals -/

theorem digit_accepts_digitChar : ∀ d : Fin 10, RuneClass.digit.accepts (digitChar d) = true := by
  decide

theorem digitChar_toNat : ∀ d : Fin 10, (digitChar d).toNat = 48 + d.val := by
  decide

theorem digitChar_not_sign : ∀ d : Fin 10, digitChar d ≠ '+' ∧ digitChar d ≠ '-' := by
  decide

theorem le_decimalFrom (ds : List (Fin 10)) : ∀ n, n ≤ decimalFrom n ds := by
  induction ds with
  | nil => intro n; exact Nat.le_refl n
  | cons d ds ih =>
    intro n
    have := ih (10 * n + d.val)
    simp only [decimalFrom, List.foldl_cons] at this ⊢
    omega

theorem decimalFrom_cons (n : Nat) (d : Fin 10) (ds : List (Fin 10)) :
    decimalFrom n (d :: ds) = decimalFrom (10 * n + d.val) ds := rfl

theorem parseUintLoop_digits (ds : List (Fin 10)) :
    ∀ n, n < 2 ^ 64 →
      parseUintLoop 10 1844674407370955162 18446744073709551615 (ds.map digitChar) n =
        if decimalFrom n ds < 2 ^ 64 then (decimalFrom n ds, none)
        else (18446744073709551615, some .ErrRange) := by
  induction ds with
  | nil =>
    intro n hn
    simp only [List.map_nil, parseUintLoop, decimalFrom, List.foldl_nil, if_pos hn]
  | cons d ds ih =>
    intro n hn
    have hmono := le_decimalFrom ds (10 * n + d.val)
    have hd := d.isLt
    rw [List.map_cons, parseUintLoop, decimalFrom_cons]
    simp only [digitChar_toNat]
    have hp : (2 : Nat) ^ 64 = 18446744073709551616 := by norm_num
    have hih := ih
    simp only [hp] at hn hih ⊢
    have hsub : 48 + d.val - 48 = d.val := by omega
    rw [if_pos (by omega), hsub, if_neg (by omega)]
    by_cases hcut : n ≥ 1844674407370955162
    · rw [if_pos hcut, if_neg (by omega)]
    · rw [if_neg hcut]
      have e0 : n * 10 % 18446744073709551616 = n * 10 := Nat.mod_eq_of_lt (by omega)
      rw [e0]
      by_cases hov : n * 10 + d.val < 18446744073709551616
      · have e1 : (n * 10 + d.val) % 18446744073709551616 = n * 10 + d.val :=
          Nat.mod_eq_of_lt hov
        rw [e1, if_neg (by omega), hih (n * 10 + d.val) hov, Nat.mul_comm 10 n]
      · have e1 : (n * 10 + d.val) % 18446744073709551616 =
            n * 10 + d.val - 18446744073709551616 := by omega
        rw [e1, if_pos (by omega), if_neg (by omega)]

theorem ParseUint_numeral (d : Fin 10) (ds : List (Fin 10)) :
    ParseUint ((d :: ds).map digitChar) 10 64 =
      if decimalValue (d :: ds) < 2 ^ 64 then (decimalValue (d :: ds), none)
      else (18446744073709551615, some .ErrRange) := by
  have h := parseUintLoop_digits (d :: ds) 0 (by norm_num)
  unfold ParseUint
  rw [if_neg (by simp), if_neg (by omega)]
  have hc : (2 ^ 64 - 1) / 10 + 1 = 1844674407370955162 := by norm_num
  have hm : 2 ^ (if 64 = 0 then 64 else 64) - 1 = 18446744073709551615 := by norm_num
  simp only [hc, hm]
  exact h

theorem ParseInt_numeral (d : Fin 10) (ds : List (Fin 10)) :
    ParseInt (numeral (d :: ds)) 10 64 =
      if decimalValue (d :: ds) < 2 ^ 63 then (Int.ofNat (decimalValue (d :: ds)), none)
      else (9223372036854775807, some .ErrRange) := by
  have hu := ParseUint_numeral d ds
  have hs := digitChar_not_sign d
  have hdata : (numeral (d :: ds)).data = digitChar d :: ds.map digitChar := rfl
  unfold ParseInt
  rw [hdata]
  simp only [hs.1, hs.2, or_self, if_false, decide_False]
  rw [← List.map_cons, hu]
  have hp : (2 : Nat) ^ 64 = 18446744073709551616 := by norm_num
  have hq : (2 : Nat) ^ 63 = 9223372036854775808 := by norm_num
  simp only [hp, hq]
  by_cases h64 : decimalValue (d :: ds) < 18446744073709551616
  · rw [if_pos h64]
    by_cases h63 : decimalValue (d :: ds) < 9223372036854775808
    · rw [if_pos h63]
      simp
      omega
    · rw [if_neg h63]
      simp
      omega
  · have h63 : ¬ decimalValue (d :: ds) < 9223372036854775808 := by omega
    rw [if_neg h64, if_neg h63]
    simp

theorem submatch_matched (base mid rest : List Char) (e0 : Nat) :
    submatch (base ++ '[' :: (mid ++ rest))
      (matched [none, none, none, none] base.length e0 (base.length + 1)
        (base.length + 1 + mid.length)) 1 = String.mk mid := by
  simp [submatch, matched]

theorem submatch_matched2 (base mid rest : List Char) (e0 : Nat) :
    submatch (base ++ '[' :: '"' :: (mid ++ rest))
      (matched [none, none, none, none] base.length e0 (base.length + 2)
        (base.length + 2 + mid.length)) 1 = String.mk mid := by
  simp [submatch, matched]

theorem Index_eq (m : Module) :
    m.Index =
      match search countRegex.prog [none, none, none, none] m.Name.data 0 with
      | none => .ret none
      | some slots => .ret (some (ParseInt (submatch m.Name.data slots 1) 10 64).1) := by
  unfold Module.Index Regexp.FindStringSubmatch
  have hrep : List.replicate (2 * (countRegex.numSubexp + 1)) (none : Option Nat) =
      [none, none, none, none] := rfl
  rw [hrep]
  generalize search countRegex.prog [none, none, none, none] m.Name.data 0 = found
  cases found with
  | none => rfl
  | some slots => rfl

theorem Key_eq (m : Module) :
    m.Key =
      match search foreachRegex.prog [none, none, none, none] m.Name.data 0 with
      | none => .ret none
      | some slots => .ret (some (submatch m.Name.data slots 1)) := by
  unfold Module.Key Regexp.FindStringSubmatch
  have hrep : List.replicate (2 * (foreachRegex.numSubexp + 1)) (none : Option Nat) =
      [none, none, none, none] := rfl
  rw [hrep]
  generalize search foreachRegex.prog [none, none, none, none] m.Name.data 0 = found
  cases found with
  | none => rfl
  | some slots => rfl

/-! ## Where the two patterns match -/

theorem count_search_hit (base : List Char) (d : Char) (ds : List Char) (slots : Slots)
    (hd : RuneClass.digit.accepts d = true)
    (hall : ∀ c ∈ ds, RuneClass.digit.accepts c = true) :
    search countRegex.prog slots (base ++ ('[' :: d :: ds ++ [']'])) 0 =
      some (matched slots base.length (base.length + 3 + ds.length) (base.length + 1)
        (base.length + 2 + ds.length)) := by
  rw [search_skip _ base 0, Nat.zero_add]
  · exact search_hit (count_run_hit d ds base.length slots hd hall)
  · intro p1 p2 _ hne q
    cases hrun : run countRegex.prog (p2 ++ ('[' :: d :: ds ++ [']'])) q slots with
    | none => rfl
    | some r =>
      exfalso
      obtain ⟨d', ds', hd', hall', heq, _⟩ := count_run_some hrun
      cases p2 with
      | nil => exact hne rfl
      | cons x p2 =>
        have h1 : (x :: (p2 ++ '[' :: d :: ds)) ++ [']'] = ('[' :: d' :: ds') ++ [']'] := by
          simpa using heq
        have h2 := List.append_cancel_right h1
        have h3 : p2 ++ '[' :: d :: ds = d' :: ds' := (List.cons.inj h2).2
        have hmem : '[' ∈ d' :: ds' := by rw [← h3]; simp
        have hacc : RuneClass.digit.accepts '[' = true := by
          rcases List.mem_cons.mp hmem with h | h
          · rw [h]; exact hd'
          · exact hall' _ h
        exact absurd hacc (by decide)

theorem count_search_some {s : List Char} {slots r : Slots}
    (h : search countRegex.prog slots s 0 = some r) :
    ∃ base d ds, RuneClass.digit.accepts d = true ∧
      (∀ c ∈ ds, RuneClass.digit.accepts c = true) ∧ s = base ++ ('[' :: d :: ds ++ [']']) := by
  obtain ⟨pre, t, hs, ht⟩ := search_some_split s 0 r h
  obtain ⟨d, ds, hd, hall, heq, _⟩ := count_run_some ht
  exact ⟨pre, d, ds, hd, hall, by rw [hs, heq]⟩

theorem foreach_search_some {s : List Char} {slots r : Slots}
    (h : search foreachRegex.prog slots s 0 = some r) :
    ∃ base k, (∀ c ∈ k, RuneClass.anyNotNL.accepts c = true) ∧
      s = base ++ ('[' :: '"' :: k ++ ['"', ']']) := by
  obtain ⟨pre, t, hs, ht⟩ := search_some_split s 0 r h
  obtain ⟨k, hall, heq, _⟩ := foreach_run_some ht
  exact ⟨pre, k, hall, by rw [hs, heq]⟩

theorem foreach_search_hit (base k : List Char) (slots : Slots)
    (hbase : ¬ (['[', '"'] <:+: base))
    (hall : ∀ c ∈ k, RuneClass.anyNotNL.accepts c = true) :
    search foreachRegex.prog slots (base ++ ('[' :: '"' :: k ++ ['"', ']'])) 0 =
      some (matched slots base.length (base.length + 4 + k.length) (base.length + 2)
        (base.length + 2 + k.length)) := by
  rw [search_skip _ base 0, Nat.zero_add]
  · exact search_hit (foreach_run_hit k base.length slots hall)
  · intro p1 p2 hsplit hne q
    cases hrun : run foreachRegex.prog (p2 ++ ('[' :: '"' :: k ++ ['"', ']'])) q slots with
    | none => rfl
    | some r =>
      exfalso
      obtain ⟨k', _, heq, _⟩ := foreach_run_some hrun
      match p2, hne, hsplit, heq with
      | [x], _, _, heq =>
        have h2 : '[' = '"' := by
          have := (List.cons.inj (List.cons.inj heq).2).1
          exact this
        exact absurd h2 (by decide)
      | x :: y :: p2, _, hsplit, heq =>
        have hx : x = '[' := (List.cons.inj heq).1
        have hy : y = '"' := (List.cons.inj (List.cons.inj heq).2).1
        exact hbase ⟨p1, p2, by rw [hsplit, hx, hy]; simp⟩

/-- A name whose search for the count pattern succeeds ends in a digit and `]`. -/
theorem count_search_ends {s : List Char} {slots r : Slots}
    (h : search countRegex.prog slots s 0 = some r) :
    ∃ pre z, RuneClass.digit.accepts z = true ∧ s = pre ++ [z, ']'] := by
  obtain ⟨base, d, ds, hd, hall, hs⟩ := count_search_some h
  have hne : d :: ds ≠ [] := by simp
  refine ⟨base ++ '[' :: (d :: ds).dropLast, (d :: ds).getLast hne, ?_, ?_⟩
  · rcases List.mem_cons.mp (List.getLast_mem hne) with h | h
    · rw [h]; exact hd
    · exact hall _ h
  · have hsplit := List.dropLast_append_getLast hne
    calc s = base ++ ('[' :: (d :: ds) ++ [']']) := hs
      _ = base ++ ('[' :: ((d :: ds).dropLast ++ [(d :: ds).getLast hne]) ++ [']']) := by
          rw [hsplit]
      _ = (base ++ '[' :: (d :: ds).dropLast) ++ [(d :: ds).getLast hne, ']'] := by simp

/-- A name whose search for the keyed pattern succeeds ends in `"]`. -/
theorem foreach_search_ends {s : List Char} {slots r : Slots}
    (h : search foreachRegex.prog slots s 0 = some r) :
    ∃ pre, s = pre ++ ['"', ']'] := by
  obtain ⟨base, k, _, hs⟩ := foreach_search_some h
  exact ⟨base ++ '[' :: '"' :: k, by rw [hs]; simp⟩

theorem ends_disjoint {pre pre' : List Char} {z : Char}
    (hz : RuneClass.digit.accepts z = true) (h : pre ++ [z, ']'] = pre' ++ ['"', ']']) : False := by
  have h1 := (List.append_inj' h rfl).2
  have h2 : z = '"' := (List.cons.inj h1).1
  rw [h2] at hz
  exact absurd hz (by decide)

theorem countName_data (base : String) (d : Fin 10) (ds : List (Fin 10)) :
    (base ++ "[" ++ numeral (d :: ds) ++ "]").data =
      base.data ++ ('[' :: digitChar d :: ds.map digitChar ++ [']']) := by
  simp [numeral, String.data_append]

theorem keyName_data (base k : String) :
    (base ++ "[\"" ++ k ++ "\"]").data = base.data ++ ('[' :: '"' :: k.data ++ ['"', ']']) := by
  simp [String.data_append]

theorem digits_accepted (ds : List (Fin 10)) :
    ∀ c ∈ ds.map digitChar, RuneClass.digit.accepts c = true := by
  intro c hc
  obtain ⟨d, _, rfl⟩ := List.mem_map.mp hc
  exact digit_accepts_digitChar d

theorem digit_of_accepts {c : Char} (h : RuneClass.digit.accepts c = true) :
    ∃ d : Fin 10, c = digitChar d := by
  simp only [RuneClass.accepts, decide_eq_true_eq] at h
  refine ⟨⟨c.toNat - 48, by omega⟩, ?_⟩
  have e : 48 + (c.toNat - 48) = c.toNat := by omega
  simp only [digitChar, e, Char.ofNat_toNat]

theorem digits_of_accepts (cs : List Char) (h : ∀ c ∈ cs, RuneClass.digit.accepts c = true) :
    ∃ ds : List (Fin 10), cs = ds.map digitChar := by
  induction cs with
  | nil => exact ⟨[], rfl⟩
  | cons c cs ih =>
    obtain ⟨d, hd⟩ := digit_of_accepts (h c (List.mem_cons_self _ _))
    obtain ⟨ds, hds⟩ := ih (fun x hx => h x (List.mem_cons_of_mem _ hx))
    exact ⟨d :: ds, by rw [hd, hds]; rfl⟩

theorem Index_some_form {m : Module} (h : m.Index ≠ .ret none) : CountForm m.Name := by
  rw [Index_eq] at h
  cases hs : search countRegex.prog [none, none, none, none] m.Name.data 0 with
  | none => rw [hs] at h; exact absurd rfl h
  | some slots =>
    obtain ⟨base, c, cs, hc, hcs, hdata⟩ := count_search_some hs
    obtain ⟨d, hd⟩ := digit_of_accepts hc
    obtain ⟨ds, hds⟩ := digits_of_accepts cs hcs
    refine ⟨String.mk base, d, ds, String.ext ?_⟩
    rw [countName_data, hdata, hd, hds]

theorem Key_some_form {m : Module} (h : m.Key ≠ .ret none) : KeyForm m.Name := by
  rw [Key_eq] at h
  cases hs : search foreachRegex.prog [none, none, none, none] m.Name.data 0 with
  | none => rw [hs] at h; exact absurd rfl h
  | some slots =>
    obtain ⟨base, k, _, hdata⟩ := foreach_search_some hs
    refine ⟨String.mk base, String.mk k, String.ext ?_⟩
    rw [keyName_data, hdata]

theorem CountForm_ends {name : String} (h : CountForm name) :
    ∃ pre, name.data = pre ++ [']'] := by
  obtain ⟨base, d, ds, hn⟩ := h
  exact ⟨base.data ++ '[' :: digitChar d :: ds.map digitChar, by rw [hn, countName_data]; simp⟩

theorem KeyForm_ends {name : String} (h : KeyForm name) :
    ∃ pre, name.data = pre ++ [']'] := by
  obtain ⟨base, k, hn⟩ := h
  exact ⟨base.data ++ '[' :: '"' :: k.data ++ ['"'], by rw [hn, keyName_data]; simp⟩

theorem Index_count_name (m : Module) (base : String) (d : Fin 10) (ds : List (Fin 10))
    (hname : m.Name = base ++ "[" ++ numeral (d :: ds) ++ "]") :
    m.Index = .ret (some (ParseInt (numeral (d :: ds)) 10 64).1) := by
  rw [Index_eq, hname, countName_data,
    count_search_hit base.data (digitChar d) (ds.map digitChar) _ (digit_accepts_digitChar d)
      (digits_accepted ds)]
  have e : base.data.length + 2 + (ds.map digitChar).length =
      base.data.length + 1 + (digitChar d :: ds.map digitChar).length := by
    simp only [List.length_cons]; omega
  have hsub := submatch_matched base.data (digitChar d :: ds.map digitChar) [']']
    (base.data.length + 3 + (ds.map digitChar).length)
  rw [← e] at hsub
  simp only [List.cons_append] at hsub ⊢
  rw [hsub]
  rfl

theorem Key_absent_of_ends {m : Module} (pre : List Char) {z : Char}
    (hz : RuneClass.digit.accepts z = true) (h : m.Name.data = pre ++ [z, ']']) :
    m.Key = .ret none := by
  rw [Key_eq]
  cases hs : search foreachRegex.prog [none, none, none, none] m.Name.data 0 with
  | none => rfl
  | some slots =>
    obtain ⟨pre', hp⟩ := foreach_search_ends hs
    exact (ends_disjoint hz (h.symm.trans hp)).elim

theorem Index_absent_of_ends {m : Module} (pre : List Char)
    (h : m.Name.data = pre ++ ['"', ']']) : m.Index = .ret none := by
  rw [Index_eq]
  cases hs : search countRegex.prog [none, none, none, none] m.Name.data 0 with
  | none => rfl
  | some slots =>
    obtain ⟨pre', z, hz, hp⟩ := count_search_ends hs
    exact (ends_disjoint hz (hp.symm.trans h)).elim

/-! ## The claims about `Index` and `Key` -/

/-- C1: for every `base` and every non-empty decimal numeral (leading zeros
allowed) whose value fits a signed 64-bit integer, `Index()` on the name
`base[numeral]` returns a present value equal to the number the numeral denotes. -/
theorem Index_of_count_name (m : Module) (base : String) (d : Fin 10) (ds : List (Fin 10))
    (hname : m.Name = base ++ "[" ++ numeral (d :: ds) ++ "]")
    (hfit : decimalValue (d :: ds) < 2 ^ 63) :
    m.Index = .ret (some (Int.ofNat (decimalValue (d :: ds)))) := by
  rw [Index_count_name m base d ds hname, ParseInt_numeral, if_pos hfit]

/-- Instances of C1: `vpc[0]` gives present `0`, `vpc[1]` gives present `1`, and
the zero-padded `vpc[007]` gives present `7`. -/
theorem Index_of_count_name_witness :
    (named "vpc[0]").Index = .ret (some 0) ∧ (named "vpc[1]").Index = .ret (some 1) ∧
      (named "vpc[007]").Index = .ret (some 7) :=
  ⟨Index_of_count_name (named "vpc[0]") "vpc" 0 [] (by decide) (by decide),
   Index_of_count_name (named "vpc[1]") "vpc" 1 [] (by decide) (by decide),
   Index_of_count_name (named "vpc[007]") "vpc" 0 [0, 7] (by decide) (by decide)⟩

theorem not_ends_of_getLast {s : List Char} (h : s.getLast? ≠ some ']') :
    ¬ ∃ pre, s = pre ++ [']'] := by
  rintro ⟨pre, rfl⟩
  exact h (by simp)

/-- C2, as the code has it: when `base` holds no earlier `["` and the key `k`
holds no line feed, `Key()` on the name `base["k"]` returns a present value equal
to `k`; the empty key is present and empty. -/
theorem Key_of_keyed_name (m : Module) (base k : String)
    (hname : m.Name = base ++ "[\"" ++ k ++ "\"]")
    (hbase : ¬ (['[', '"'] <:+: base.data)) (hk : '\n' ∉ k.data) :
    m.Key = .ret (some k) := by
  have hall : ∀ c ∈ k.data, RuneClass.anyNotNL.accepts c = true := by
    intro c hc
    simp only [RuneClass.accepts, decide_eq_true_eq]
    rintro rfl
    exact hk hc
  rw [Key_eq, hname, keyName_data, foreach_search_hit base.data k.data _ hbase hall]
  have hsub := submatch_matched2 base.data k.data ['"', ']']
    (base.data.length + 4 + k.data.length)
  simp only [List.cons_append] at hsub ⊢
  rw [hsub]

/-- Instances of the amended C2: a plain key, and the empty key, which is present
and empty rather than absent. -/
theorem Key_of_keyed_name_witness :
    (named "vpc[\"a\"]").Key = .ret (some "a") ∧ (named "vpc[\"\"]").Key = .ret (some "") :=
  ⟨Key_of_keyed_name (named "vpc[\"a\"]") "vpc" "a" (by decide) (by decide) (by decide),
   Key_of_keyed_name (named "vpc[\"\"]") "vpc" "" (by decide) (by decide) (by decide)⟩

/-- C2 fails as stated: with the base `a["x"].b` and the key `k` the leftmost
match starts at the first `["` and the greedy capture runs through both segments;
and a key holding a line feed is not matched at all. -/
theorem Key_of_keyed_name_counterexample :
    (named ("a[\"x\"].b" ++ "[\"" ++ "k" ++ "\"]")).Key = .ret (some "x\"].b[\"k") ∧
      (named ("a[\"x\"].b" ++ "[\"" ++ "k" ++ "\"]")).Key ≠ .ret (some "k") ∧
      (named ("m" ++ "[\"" ++ "a\nb" ++ "\"]")).Key = .ret none ∧
      (named ("m" ++ "[\"" ++ "a\nb" ++ "\"]")).Key ≠ .ret (some "a\nb") := by
  decide

/-- C3: `Index()` and `Key()` are never both present; on a name of the form
`base[N]` the key is absent, and on a name of the form `base["k"]` the index is
absent. -/
theorem Index_Key_exclusive :
    (∀ m : Module, m.Index = .ret none ∨ m.Key = .ret none) ∧
    (∀ (m : Module) (base : String) (d : Fin 10) (ds : List (Fin 10)),
      m.Name = base ++ "[" ++ numeral (d :: ds) ++ "]" → m.Key = .ret none) ∧
    (∀ (m : Module) (base k : String),
      m.Name = base ++ "[\"" ++ k ++ "\"]" → m.Index = .ret none) := by
  refine ⟨?_, ?_, ?_⟩
  · intro m
    cases hs : search countRegex.prog [none, none, none, none] m.Name.data 0 with
    | none => left; rw [Index_eq, hs]
    | some slots =>
      right
      obtain ⟨pre, z, hz, hp⟩ := count_search_ends hs
      exact Key_absent_of_ends pre hz hp
  · intro m base d ds hname
    have hne : digitChar d :: ds.map digitChar ≠ [] := by simp
    have hz : RuneClass.digit.accepts ((digitChar d :: ds.map digitChar).getLast hne) = true :=
      digits_accepted (d :: ds) _ (List.getLast_mem hne)
    refine Key_absent_of_ends (base.data ++ '[' :: (digitChar d :: ds.map digitChar).dropLast)
      hz ?_
    rw [hname, countName_data]
    have hsplit := List.dropLast_append_getLast hne
    calc base.data ++ ('[' :: digitChar d :: ds.map digitChar ++ [']'])
        = base.data ++ ('[' :: ((digitChar d :: ds.map digitChar).dropLast ++
            [(digitChar d :: ds.map digitChar).getLast hne]) ++ [']']) := by rw [hsplit]
      _ = _ := by simp
  · intro m base k hname
    refine Index_absent_of_ends (base.data ++ '[' :: '"' :: k.data) ?_
    rw [hname, keyName_data]
    simp

/-- Instances of C3 on the names `vpc[0]` and `vpc["a"]`. -/
theorem Index_Key_exclusive_witness :
    (named "vpc[0]").Key = .ret none ∧ (named "vpc[\"a\"]").Index = .ret none :=
  ⟨Index_Key_exclusive.2.1 (named "vpc[0]") "vpc" 0 [] (by decide),
   Index_Key_exclusive.2.2 (named "vpc[\"a\"]") "vpc" "a" (by decide)⟩

theorem absent_of_not_forms (m : Module) (hcount : ¬ CountForm m.Name)
    (hkey : ¬ KeyForm m.Name) : m.Index = .ret none ∧ m.Key = .ret none := by
  constructor
  · by_contra h
    exact hcount (Index_some_form h)
  · by_contra h
    exact hkey (Key_some_form h)

/-- A name that does not end in `]` matches neither pattern. -/
theorem no_match_of_last (name : String) (h : name.data.getLast? ≠ some ']') :
    countRegex.FindStringSubmatch name = [] ∧ foreachRegex.FindStringSubmatch name = [] := by
  have hrep : List.replicate (2 * (1 + 1)) (none : Option Nat) = [none, none, none, none] := rfl
  constructor
  · unfold Regexp.FindStringSubmatch
    show (match search countRegex.prog (List.replicate (2 * (1 + 1)) none) name.data 0 with
      | none => []
      | some slots => (List.range (1 + 1)).map (submatch name.data slots)) = []
    rw [hrep]
    cases hs : search countRegex.prog [none, none, none, none] name.data 0 with
    | none => rfl
    | some slots =>
      exfalso
      obtain ⟨pre, z, _, hp⟩ := count_search_ends hs
      exact h (by rw [hp]; simp)
  · unfold Regexp.FindStringSubmatch
    show (match search foreachRegex.prog (List.replicate (2 * (1 + 1)) none) name.data 0 with
      | none => []
      | some slots => (List.range (1 + 1)).map (submatch name.data slots)) = []
    rw [hrep]
    cases hs : search foreachRegex.prog [none, none, none, none] name.data 0 with
    | none => rfl
    | some slots =>
      exfalso
      obtain ⟨pre, hp⟩ := foreach_search_ends hs
      exact h (by rw [hp]; simp)

/-- C4: on a name that matches neither the count pattern nor the keyed pattern
(`FindStringSubmatch` finds nothing for either), both `Index()` and `Key()` return
absent: no panic, no error, no default value. -/
theorem Index_Key_absent (m : Module)
    (hcount : countRegex.FindStringSubmatch m.Name = [])
    (hkey : foreachRegex.FindStringSubmatch m.Name = []) :
    m.Index = .ret none ∧ m.Key = .ret none := by
  constructor
  · unfold Module.Index
    rw [hcount]
    rfl
  · unfold Module.Key
    rw [hkey]
    rfl

/-- Instances of C4: the names `base`, the empty name, `vpc[0]x`, which does not
end in `]`, and `m["a` line feed `b"]`, whose key the keyed pattern does not take. -/
theorem Index_Key_absent_witness :
    ((named "base").Index = .ret none ∧ (named "base").Key = .ret none) ∧
    ((named "").Index = .ret none ∧ (named "").Key = .ret none) ∧
    ((named "vpc[0]x").Index = .ret none ∧ (named "vpc[0]x").Key = .ret none) ∧
    ((named "m[\"a\nb\"]").Index = .ret none ∧ (named "m[\"a\nb\"]").Key = .ret none) :=
  ⟨Index_Key_absent (named "base") (by decide) (by decide),
   Index_Key_absent (named "") (by decide) (by decide),
   Index_Key_absent (named "vpc[0]x") (no_match_of_last "vpc[0]x" (by decide)).1
     (no_match_of_last "vpc[0]x" (by decide)).2,
   Index_Key_absent (named "m[\"a\nb\"]") (by decide) (by decide)⟩

/-- C5, as the code has it: on a name of the form `base[numeral]` whose numeral
fails to parse as a signed 64-bit integer, `Index()` does not panic and returns a
present value, the largest signed 64-bit integer; the parse error is discarded. -/
theorem Index_of_unparsable_count_name (m : Module) (base : String) (d : Fin 10)
    (ds : List (Fin 10)) (hname : m.Name = base ++ "[" ++ numeral (d :: ds) ++ "]")
    (hfail : (ParseInt (numeral (d :: ds)) 10 64).2 ≠ none) :
    m.Index = .ret (some 9223372036854775807) := by
  rw [Index_count_name m base d ds hname]
  rw [ParseInt_numeral] at hfail ⊢
  by_cases hfit : decimalValue (d :: ds) < 2 ^ 63
  · rw [if_pos hfit] at hfail
    exact absurd rfl hfail
  · rw [if_neg hfit]

/-- Instance of the amended C5: the name `m[99999999999999999999]`. -/
theorem Index_of_unparsable_count_name_witness :
    (ParseInt "99999999999999999999" 10 64).2 ≠ none ∧
      (named "m[99999999999999999999]").Index = .ret (some 9223372036854775807) :=
  ⟨by decide,
   Index_of_unparsable_count_name (named "m[99999999999999999999]") "m" 9
     [9, 9, 9, 9, 9, 9, 9, 9, 9, 9, 9, 9, 9, 9, 9, 9, 9, 9, 9] (by decide) (by decide)⟩

/-- C5 fails as stated: the numeral of `m[99999999999999999999]` is out of range
for a signed 64-bit integer, and `Index()` is present there, not absent. -/
theorem Index_of_unparsable_counterexample :
    (ParseInt "99999999999999999999" 10 64).2 = some .ErrRange ∧
      (named "m[99999999999999999999]").Index = .ret (some 9223372036854775807) ∧
      (named "m[99999999999999999999]").Index ≠ .ret none := by
  decide

/-! ## Facts about quoting and joining -/

/-- Runes that `%q` copies unchanged: printable, and neither the double quote nor
the backslash. -/
theorem appendEscapedRune_plain (wide : Nat → Bool) (buf : List Char) (c : Char)
    (h : IsPrint wide c = true ∧ c ≠ '"' ∧ c ≠ '\\') :
    appendEscapedRune wide buf c = buf ++ [c] := by
  unfold appendEscapedRune
  rw [if_neg (by simp [h.2.1, h.2.2]), if_pos h.1]

theorem foldl_appendEscapedRune_plain (wide : Nat → Bool) (cs : List Char) :
    ∀ buf : List Char, (∀ c ∈ cs, IsPrint wide c = true ∧ c ≠ '"' ∧ c ≠ '\\') →
      cs.foldl (appendEscapedRune wide) buf = buf ++ cs := by
  induction cs with
  | nil => intro buf _; simp
  | cons c cs ih =>
    intro buf h
    rw [List.foldl_cons, appendEscapedRune_plain wide buf c (h c (List.mem_cons_self _ _)),
      ih _ (fun x hx => h x (List.mem_cons_of_mem _ hx))]
    simp

theorem Quote_plain (wide : Nat → Bool) (e : String)
    (h : ∀ c ∈ e.data, IsPrint wide c = true ∧ c ≠ '"' ∧ c ≠ '\\') :
    Quote wide e = "\"" ++ e ++ "\"" := by
  apply String.ext
  simp only [Quote, appendQuotedWith, String.data_append]
  rw [foldl_appendEscapedRune_plain wide e.data _ h]
  rfl

theorem intercalate_go_eq_foldl (sep : String) (l : List String) :
    ∀ acc : String, String.intercalate.go acc sep l = l.foldl (fun b s => b ++ sep ++ s) acc := by
  induction l with
  | nil => intro acc; rfl
  | cons a l ih => intro acc; simp only [String.intercalate.go, List.foldl_cons, ih]

theorem Join_eq_intercalate (l : List String) (sep : String) :
    Join l sep = String.intercalate sep l := by
  match l with
  | [] => rfl
  | [e] => rfl
  | e :: e' :: rest =>
    simp only [Join, String.intercalate, intercalate_go_eq_foldl]

/-! ## The claims about the warning factory -/

/-- C6: for every sequence `vars`, `NewMissingVarsWarning(vars)` has the code
`WarningMissingVars`, the title `Missing Terraform vars`, and carries `vars` itself
as its data: same elements, same order, same multiplicity. -/
theorem NewMissingVarsWarning_fields (wide : Nat → Bool) (vars : List String) :
    (NewMissingVarsWarning wide vars).Code = WarningMissingVars ∧
      (NewMissingVarsWarning wide vars).Code = 1 ∧
      (NewMissingVarsWarning wide vars).Title = "Missing Terraform vars" ∧
      (NewMissingVarsWarning wide vars).Data = .strings vars :=
  ⟨rfl, rfl, rfl, rfl⟩

/-- C7, as the code has it: when every rune of every element is printable and is
neither the double quote nor the backslash, `joinQuotes(elems)` is the elements in
input order, each between one leading and one trailing double quote with its
content unchanged, joined by a comma and a space. (Other runes are escaped by `%q`.) -/
theorem joinQuotes_plain (wide : Nat → Bool) (elems : List String)
    (h : ∀ e ∈ elems, ∀ c ∈ e.data, IsPrint wide c = true ∧ c ≠ '"' ∧ c ≠ '\\') :
    joinQuotes wide elems = joinQuotesSpec elems := by
  unfold joinQuotes joinQuotesSpec
  rw [Join_eq_intercalate]
  congr 1
  exact List.map_congr_left (fun e he => Quote_plain wide e (h e he))

/-- Instance of the amended C7: `["a","b"]` gives the 8-character text `"a", "b"`. -/
theorem joinQuotes_plain_witness :
    joinQuotes (fun _ => false) ["a", "b"] = joinQuotesSpec ["a", "b"] ∧
      joinQuotesSpec ["a", "b"] = "\"a\", \"b\"" ∧
      (joinQuotesSpec ["a", "b"]).length = 8 :=
  ⟨joinQuotes_plain (fun _ => false) ["a", "b"] (by decide), by decide, by decide⟩

/-- C7 fails as stated: an element holding a double quote, a backslash or a line
feed is not rendered with its content unchanged; `%q` escapes these runes. -/
theorem joinQuotes_counterexample :
    joinQuotes (fun _ => true) ["a\"b"] = "\"a\\\"b\"" ∧
      joinQuotes (fun _ => true) ["a\"b"] ≠ joinQuotesSpec ["a\"b"] ∧
      joinQuotes (fun _ => true) ["c\\d"] = "\"c\\\\d\"" ∧
      joinQuotes (fun _ => true) ["c\\d"] ≠ joinQuotesSpec ["c\\d"] ∧
      joinQuotes (fun _ => true) ["e\nf"] = "\"e\\nf\"" ∧
      joinQuotes (fun _ => true) ["e\nf"] ≠ joinQuotesSpec ["e\nf"] := by
  decide

/-- C8: for every sequence `vars`, the friendly message is the fixed opening
sentence, the joined name list, a full stop and a space, and the fixed guidance
sentence; it names both `--terraform-var-file` and `--terraform-var`; and two
warnings with equal data have equal friendly messages. -/
theorem NewMissingVarsWarning_message (wide : Nat → Bool) :
    (∀ vars : List String,
      (NewMissingVarsWarning wide vars).FriendlyMessage =
        "Input values were not provided for following Terraform variables: " ++
          joinQuotes wide vars ++ ". " ++
          "Use --terraform-var-file or --terraform-var to specify them.") ∧
    (∀ vars : List String,
      "--terraform-var-file".data <:+: (NewMissingVarsWarning wide vars).FriendlyMessage.data ∧
      "--terraform-var".data <:+: (NewMissingVarsWarning wide vars).FriendlyMessage.data) ∧
    (∀ vars vars' : List String,
      (NewMissingVarsWarning wide vars).Data = (NewMissingVarsWarning wide vars').Data →
      (NewMissingVarsWarning wide vars).FriendlyMessage =
        (NewMissingVarsWarning wide vars').FriendlyMessage) := by
  refine ⟨fun _ => rfl, fun vars => ⟨?_, ?_⟩, ?_⟩
  · refine ⟨("Input values were not provided for following Terraform variables: " ++
      joinQuotes wide vars ++ ". " ++ "Use ").data,
      " or --terraform-var to specify them.".data, ?_⟩
    simp only [NewMissingVarsWarning, String.data_append, List.append_assoc]
    rfl
  · refine ⟨("Input values were not provided for following Terraform variables: " ++
      joinQuotes wide vars ++ ". " ++ "Use --terraform-var-file or ").data,
      " to specify them.".data, ?_⟩
    simp only [NewMissingVarsWarning, String.data_append, List.append_assoc]
    rfl
  · intro vars vars' h
    have hv : vars = vars' := by
      simpa [NewMissingVarsWarning] using h
    rw [hv]

/-- Instance of C8 on `["a","b"]`, with the message written out. -/
theorem NewMissingVarsWarning_message_witness :
    (NewMissingVarsWarning (fun _ => false) ["a", "b"]).FriendlyMessage =
      "Input values were not provided for following Terraform variables: \"a\", \"b\". Use --terraform-var-file or --terraform-var to specify them." :=
  ((NewMissingVarsWarning_message (fun _ => false)).1 ["a", "b"]).trans (by decide)

/-- C9: on the empty sequence `joinQuotes` is the empty text, and
`NewMissingVarsWarning` returns the warning whose message lists no name, with the
code `WarningMissingVars` and the empty sequence as data. -/
theorem NewMissingVarsWarning_empty (wide : Nat → Bool) :
    joinQuotes wide [] = "" ∧
      NewMissingVarsWarning wide [] =
        { Code := WarningMissingVars,
          Title := "Missing Terraform vars",
          Data := .strings [],
          FriendlyMessage := "Input values were not provided for following Terraform variables: . Use --terraform-var-file or --terraform-var to specify them." } := by
  refine ⟨rfl, ?_⟩
  have hj : joinQuotes wide [] = "" := rfl
  simp only [NewMissingVarsWarning, hj]
  decide

/-- C10: `Index()` and `Key()` depend on the module through its `Name` alone: two
modules with equal names give equal results, whatever their other fields; and the
receiver is the same after either call. -/
theorem Index_Key_pure (m m' : Module) (hname : m.Name = m'.Name) :
    m.Index = m'.Index ∧ m.Key = m'.Key ∧
      m.callIndex.2 = m ∧ m.callKey.2 = m ∧
      m.callIndex.1 = m'.callIndex.1 ∧ m.callKey.1 = m'.callKey.1 := by
  have hi : m.Index = m'.Index := by rw [Index_eq, Index_eq, hname]
  have hk : m.Key = m'.Key := by rw [Key_eq, Key_eq, hname]
  exact ⟨hi, hk, rfl, rfl, hi, hk⟩

/-- Instance of C10: two modules named `vpc[0]` that differ in every other field. -/
theorem Index_Key_pure_witness :
    (named "vpc[0]").Index =
        ({ Name := "vpc[0]", Source := "./vpc", Blocks := [1, 2], RawBlocks := [3],
           RootPath := "/p", ModulePath := "/p/vpc", Modules := [4], Parent := some 5,
           Warnings := [NewMissingVarsWarning (fun _ => false) ["a"]], HasChanges := true,
           TerraformVarsPaths := ["x.tfvars"], ModuleSuffix := "s",
           SourceURL := "u" } : Module).Index ∧
      (named "vpc[0]").Key =
        ({ Name := "vpc[0]", Source := "./vpc", Blocks := [1, 2], RawBlocks := [3],
           RootPath := "/p", ModulePath := "/p/vpc", Modules := [4], Parent := some 5,
           Warnings := [NewMissingVarsWarning (fun _ => false) ["a"]], HasChanges := true,
           TerraformVarsPaths := ["x.tfvars"], ModuleSuffix := "s",
           SourceURL := "u" } : Module).Key :=
  ⟨(Index_Key_pure (named "vpc[0]") _ rfl).1, (Index_Key_pure (named "vpc[0]") _ rfl).2.1⟩

/-! ## The range of `Index` and the shape of `Key` -/

theorem search_isSome_of_suffix {prog : List Inst} {slots : Slots} (t : List Char)
    (hrun : ∀ q, (run prog t q slots).isSome = true) :
    ∀ (pre : List Char) (pos : Nat), (search prog slots (pre ++ t) pos).isSome = true := by
  intro pre
  induction pre with
  | nil =>
    intro pos
    obtain ⟨r, hr⟩ := Option.isSome_iff_exists.mp (hrun pos)
    rw [List.nil_append, search_hit hr]
    rfl
  | cons c pre ih =>
    intro pos
    show (search prog slots (c :: (pre ++ t)) pos).isSome = true
    unfold search
    cases run prog (c :: (pre ++ t)) pos slots with
    | some r => rfl
    | none => exact ih (pos + 1)

theorem no_infix_of_no_earlier (pre rest : List Char)
    (h : ∀ j, j < pre.length →
      ¬ ((pre ++ rest)[j]? = some '[' ∧ (pre ++ rest)[j + 1]? = some '"')) :
    ¬ (['[', '"'] <:+: pre) := by
  rintro ⟨a, b, hab⟩
  have hlen : a.length < pre.length := by
    rw [← hab]; simp
  apply h a.length hlen
  rw [← hab]
  constructor
  · rw [List.append_assoc, List.append_assoc,
      List.getElem?_append_right (Nat.le_refl _), Nat.sub_self]
    rfl
  · rw [List.append_assoc, List.append_assoc,
      List.getElem?_append_right (Nat.le_succ _)]
    have e : a.length.succ - a.length = 1 := by omega
    rw [e]
    simp

/-- C12: a present `Index()` lies between `0` and `2^63 - 1`; on a name of the form
`base[numeral]` it is the value of the numeral when that fits a signed 64-bit
integer, and the saturated value `2^63 - 1` when the numeral is too large. -/
theorem Index_range (m : Module) (v : Int) (h : m.Index = .ret (some v)) :
    (0 ≤ v ∧ v ≤ 9223372036854775807) ∧
    (∀ (base : String) (d : Fin 10) (ds : List (Fin 10)),
      m.Name = base ++ "[" ++ numeral (d :: ds) ++ "]" →
        (decimalValue (d :: ds) < 2 ^ 63 → v = Int.ofNat (decimalValue (d :: ds))) ∧
        (2 ^ 63 ≤ decimalValue (d :: ds) → v = 9223372036854775807)) := by
  have hval : ∀ (base : String) (d : Fin 10) (ds : List (Fin 10)),
      m.Name = base ++ "[" ++ numeral (d :: ds) ++ "]" →
      v = (if decimalValue (d :: ds) < 2 ^ 63 then
            ((Int.ofNat (decimalValue (d :: ds)), none) : Int × Option NumError)
          else (9223372036854775807, some .ErrRange)).1 := by
    intro base d ds hname
    have hi := Index_count_name m base d ds hname
    rw [h, ParseInt_numeral] at hi
    injection hi with hi
    injection hi with hi
  constructor
  · have hne : m.Index ≠ .ret none := by rw [h]; simp
    obtain ⟨base, d, ds, hname⟩ := Index_some_form hne
    have hv := hval base d ds hname
    by_cases hfit : decimalValue (d :: ds) < 2 ^ 63
    · rw [if_pos hfit] at hv
      have hp : (2 : Nat) ^ 63 = 9223372036854775808 := by norm_num
      rw [hp] at hfit
      rw [hv]
      simp only [Int.ofNat_eq_coe]
      omega
    · rw [if_neg hfit] at hv
      rw [hv]
      simp
  · intro base d ds hname
    have hv := hval base d ds hname
    constructor
    · intro hfit
      rw [if_pos hfit] at hv
      exact hv
    · intro hbig
      rw [if_neg (Nat.not_lt.mpr hbig)] at hv
      exact hv

/-- Instances of C12: the oversized numeral of `m[99999999999999999999]` gives the
saturated value, and `vpc[12]` gives `12`. -/
theorem Index_range_witness :
    (named "m[99999999999999999999]").Index = .ret (some 9223372036854775807) ∧
      ((0 : Int) ≤ 9223372036854775807 ∧ (9223372036854775807 : Int) ≤ 9223372036854775807) ∧
      (named "vpc[12]").Index = .ret (some 12) ∧
      ((0 : Int) ≤ 12 ∧ (12 : Int) ≤ 9223372036854775807) :=
  ⟨by decide,
   (Index_range (named "m[99999999999999999999]") 9223372036854775807 (by decide)).1,
   by decide,
   (Index_range (named "vpc[12]") 12 (by decide)).1⟩

/-- C13: on a name without a line feed, `Key()` is present exactly when the name is
some text, then `["`, then a key, then `"]` at the very end; and the key returned
is the text between the first `["` of the name and the final `"]`. -/
theorem Key_leftmost_greedy (m : Module) (hnl : '\n' ∉ m.Name.data) :
    ((∃ key, m.Key = .ret (some key)) ↔
      ∃ pre k, m.Name.data = pre ++ ('[' :: '"' :: k ++ ['"', ']'])) ∧
    (∀ pre k, m.Name.data = pre ++ ('[' :: '"' :: k ++ ['"', ']']) →
      (∀ j, j < pre.length →
        ¬ (m.Name.data[j]? = some '[' ∧ m.Name.data[j + 1]? = some '"')) →
      m.Key = .ret (some (String.mk k))) := by
  have hall : ∀ pre k, m.Name.data = pre ++ ('[' :: '"' :: k ++ ['"', ']']) →
      ∀ c ∈ k, RuneClass.anyNotNL.accepts c = true := by
    intro pre k hs c hc
    simp only [RuneClass.accepts, decide_eq_true_eq]
    rintro rfl
    apply hnl
    rw [hs]
    simp [hc]
  refine ⟨⟨?_, ?_⟩, ?_⟩
  · rintro ⟨key, hkey⟩
    rw [Key_eq] at hkey
    cases hs : search foreachRegex.prog [none, none, none, none] m.Name.data 0 with
    | none => rw [hs] at hkey; simp at hkey
    | some slots =>
      obtain ⟨base, k, _, hdata⟩ := foreach_search_some hs
      exact ⟨base, k, hdata⟩
  · rintro ⟨pre, k, hs⟩
    have hsome := search_isSome_of_suffix ('[' :: '"' :: k ++ ['"', ']'])
      (fun q => by
        rw [foreach_run_hit k q [none, none, none, none] (hall pre k hs)]; rfl) pre 0
    rw [← hs] at hsome
    obtain ⟨slots, hslots⟩ := Option.isSome_iff_exists.mp hsome
    exact ⟨submatch m.Name.data slots 1, by rw [Key_eq, hslots]⟩
  · intro pre k hs hfirst
    have hbase : ¬ (['[', '"'] <:+: pre) :=
      no_infix_of_no_earlier pre ('[' :: '"' :: k ++ ['"', ']']) (by rw [← hs]; exact hfirst)
    rw [Key_eq, hs, foreach_search_hit pre k _ hbase (hall pre k hs)]
    have hsub := submatch_matched2 pre k ['"', ']'] (pre.length + 4 + k.length)
    simp only [List.cons_append] at hsub ⊢
    rw [hsub]

/-- Instances of C13: on `a["x"].b["k"]` the key runs from `x` through `k` across
both segments, and on `vpc["k"]` it is `k`. -/
theorem Key_leftmost_greedy_witness :
    (named "a[\"x\"].b[\"k\"]").Key = .ret (some "x\"].b[\"k") ∧
      (named "vpc[\"k\"]").Key = .ret (some "k") :=
  ⟨(Key_leftmost_greedy (named "a[\"x\"].b[\"k\"]") (by decide)).2
      "a".data "x\"].b[\"k".data (by decide) (by decide),
   (Key_leftmost_greedy (named "vpc[\"k\"]") (by decide)).2
      "vpc".data "k".data (by decide) (by decide)⟩

/-! ## The rendering of a name list loses nothing -/

theorem char_toNat_lt (r : Char) : r.toNat < 0x110000 := by
  have h := r.valid
  simp only [UInt32.isValidChar, Nat.isValidChar] at h
  show r.val.toNat < 0x110000
  omega

theorem nibble_eq (n sh : Nat) : (n >>> sh) &&& 0xF = (n / 2 ^ sh) % 16 := by
  rw [Nat.shiftRight_eq_div_pow]
  exact Nat.and_pow_two_sub_one_eq_mod _ 4

theorem hexVal_lowerhex : ∀ n : Fin 16, hexVal (lowerhex n.val) = n.val := by
  decide

theorem hexVal_nibble (n sh : Nat) :
    hexVal (lowerhex ((n >>> sh) &&& 0xF)) = (n / 2 ^ sh) % 16 := by
  rw [nibble_eq]
  exact hexVal_lowerhex ⟨(n / 2 ^ sh) % 16, Nat.mod_lt _ (by decide)⟩

theorem hexNum_hexAt2 (n : Nat) (h : n < 0x100) : hexNum (hexAt n [4, 0]) = n := by
  simp only [hexNum, hexAt, List.map, List.foldl, hexVal_nibble]
  norm_num
  omega

theorem hexNum_hexAt4 (n : Nat) (h : n < 0x10000) : hexNum (hexAt n [12, 8, 4, 0]) = n := by
  simp only [hexNum, hexAt, List.map, List.foldl, hexVal_nibble]
  norm_num
  omega

theorem hexNum_hexAt8 (n : Nat) (h : n < 0x100000000) :
    hexNum (hexAt n [28, 24, 20, 16, 12, 8, 4, 0]) = n := by
  simp only [hexNum, hexAt, List.map, List.foldl, hexVal_nibble]
  norm_num
  omega

theorem unescape_x (h1 h2 : Char) (t : List Char) :
    unescapeRune ('\\' :: 'x' :: h1 :: h2 :: t) = some (Char.ofNat (hexNum [h1, h2]), t) := rfl

theorem unescape_u (h1 h2 h3 h4 : Char) (t : List Char) :
    unescapeRune ('\\' :: 'u' :: h1 :: h2 :: h3 :: h4 :: t) =
      some (Char.ofNat (hexNum [h1, h2, h3, h4]), t) := rfl

theorem unescape_U (h1 h2 h3 h4 h5 h6 h7 h8 : Char) (t : List Char) :
    unescapeRune ('\\' :: 'U' :: h1 :: h2 :: h3 :: h4 :: h5 :: h6 :: h7 :: h8 :: t) =
      some (Char.ofNat (hexNum [h1, h2, h3, h4, h5, h6, h7, h8]), t) := rfl

theorem char_of_toNat {r : Char} {n : Nat} (h : r.toNat = n) : r = Char.ofNat n := by
  rw [← h, Char.ofNat_toNat]

theorem appendEscapedRune_buf (wide : Nat → Bool) (buf : List Char) (r : Char) :
    appendEscapedRune wide buf r = buf ++ appendEscapedRune wide [] r := by
  unfold appendEscapedRune
  by_cases h1 : (r = '"' ∨ r = '\\')
  · rw [if_pos h1, if_pos h1]; rfl
  rw [if_neg h1, if_neg h1]
  by_cases h2 : IsPrint wide r = true
  · rw [if_pos h2, if_pos h2]; rfl
  rw [if_neg h2, if_neg h2]
  by_cases h3 : r.toNat = 0x07
  · rw [if_pos h3, if_pos h3]; rfl
  rw [if_neg h3, if_neg h3]
  by_cases h4 : r.toNat = 0x08
  · rw [if_pos h4, if_pos h4]; rfl
  rw [if_neg h4, if_neg h4]
  by_cases h5 : r.toNat = 0x0C
  · rw [if_pos h5, if_pos h5]; rfl
  rw [if_neg h5, if_neg h5]
  by_cases h6 : r.toNat = 0x0A
  · rw [if_pos h6, if_pos h6]; rfl
  rw [if_neg h6, if_neg h6]
  by_cases h7 : r.toNat = 0x0D
  · rw [if_pos h7, if_pos h7]; rfl
  rw [if_neg h7, if_neg h7]
  by_cases h8 : r.toNat = 0x09
  · rw [if_pos h8, if_pos h8]; rfl
  rw [if_neg h8, if_neg h8]
  by_cases h9 : r.toNat = 0x0B
  · rw [if_pos h9, if_pos h9]; rfl
  rw [if_neg h9, if_neg h9]
  by_cases h10 : (r.toNat < 0x20 ∨ r.toNat = 0x7F)
  · rw [if_pos h10, if_pos h10]; rfl
  rw [if_neg h10, if_neg h10]
  by_cases h11 : r.toNat < 0x10000
  · rw [if_pos h11, if_pos h11]; rfl
  rw [if_neg h11, if_neg h11]
  rfl

/-- Reading back what `appendEscapedRune` wrote gives the rune and the rest of the
text, whatever follows. -/
theorem unescape_escaped (wide : Nat → Bool) (r : Char) (t : List Char) :
    unescapeRune (appendEscapedRune wide [] r ++ t) = some (r, t) := by
  unfold appendEscapedRune
  by_cases h1 : (r = '"' ∨ r = '\\')
  · rw [if_pos h1]
    rcases h1 with rfl | rfl <;> rfl
  rw [if_neg h1]
  by_cases h2 : IsPrint wide r = true
  · rw [if_pos h2]
    have ha : r ≠ '"' := fun h => h1 (Or.inl h)
    have hb : r ≠ '\\' := fun h => h1 (Or.inr h)
    show unescapeRune (r :: t) = some (r, t)
    simp only [unescapeRune]
    rw [if_neg ha, if_pos hb]
  rw [if_neg h2]
  by_cases h3 : r.toNat = 0x07
  · rw [if_pos h3]
    rw [char_of_toNat h3]; rfl
  rw [if_neg h3]
  by_cases h4 : r.toNat = 0x08
  · rw [if_pos h4]
    rw [char_of_toNat h4]; rfl
  rw [if_neg h4]
  by_cases h5 : r.toNat = 0x0C
  · rw [if_pos h5]
    rw [char_of_toNat h5]; rfl
  rw [if_neg h5]
  by_cases h6 : r.toNat = 0x0A
  · rw [if_pos h6]
    rw [char_of_toNat h6]; rfl
  rw [if_neg h6]
  by_cases h7 : r.toNat = 0x0D
  · rw [if_pos h7]
    rw [char_of_toNat h7]; rfl
  rw [if_neg h7]
  by_cases h8 : r.toNat = 0x09
  · rw [if_pos h8]
    rw [char_of_toNat h8]; rfl
  rw [if_neg h8]
  by_cases h9 : r.toNat = 0x0B
  · rw [if_pos h9]
    rw [char_of_toNat h9]; rfl
  rw [if_neg h9]
  by_cases h10 : (r.toNat < 0x20 ∨ r.toNat = 0x7F)
  · rw [if_pos h10]
    have hlt : r.toNat < 0x100 := by omega
    have hn := hexNum_hexAt2 r.toNat hlt
    simp only [hexAt, List.map] at hn ⊢
    simp only [List.cons_append, List.nil_append]
    rw [unescape_x, hn, Char.ofNat_toNat]
  rw [if_neg h10]
  by_cases h11 : r.toNat < 0x10000
  · rw [if_pos h11]
    have hn := hexNum_hexAt4 r.toNat h11
    simp only [hexAt, List.map] at hn ⊢
    simp only [List.cons_append, List.nil_append]
    rw [unescape_u, hn, Char.ofNat_toNat]
  rw [if_neg h11]
  have hn := hexNum_hexAt8 r.toNat (by have := char_toNat_lt r; omega)
  simp only [hexAt, List.map] at hn ⊢
  simp only [List.cons_append, List.nil_append]
  rw [unescape_U, hn, Char.ofNat_toNat]

theorem foldl_escape_buf (wide : Nat → Bool) (cs : List Char) :
    ∀ buf : List Char,
      cs.foldl (appendEscapedRune wide) buf = buf ++ cs.foldl (appendEscapedRune wide) [] := by
  induction cs with
  | nil => intro buf; simp
  | cons c cs ih =>
    intro buf
    rw [List.foldl_cons, List.foldl_cons, ih (appendEscapedRune wide buf c),
      ih (appendEscapedRune wide [] c), appendEscapedRune_buf wide buf c, List.append_assoc]

theorem escaped_cons (wide : Nat → Bool) (c : Char) (cs : List Char) :
    (c :: cs).foldl (appendEscapedRune wide) [] =
      appendEscapedRune wide [] c ++ cs.foldl (appendEscapedRune wide) [] := by
  rw [List.foldl_cons, foldl_escape_buf]

/-- Two escaped texts, each closed by a double quote, agree only when the texts
escaped and what follows the closing quotes agree. -/
theorem escaped_inj (wide : Nat → Bool) :
    ∀ (x y t1 t2 : List Char),
      x.foldl (appendEscapedRune wide) [] ++ '"' :: t1 =
        y.foldl (appendEscapedRune wide) [] ++ '"' :: t2 →
      x = y ∧ t1 = t2 := by
  intro x
  induction x with
  | nil =>
    intro y t1 t2 h
    cases y with
    | nil => simpa using h
    | cons d y =>
      exfalso
      rw [escaped_cons, List.append_assoc] at h
      have hd := unescape_escaped wide d
        (y.foldl (appendEscapedRune wide) [] ++ '"' :: t2)
      rw [← h] at hd
      simp [unescapeRune] at hd
  | cons c x ih =>
    intro y t1 t2 h
    cases y with
    | nil =>
      exfalso
      rw [escaped_cons, List.append_assoc] at h
      have hc := unescape_escaped wide c
        (x.foldl (appendEscapedRune wide) [] ++ '"' :: t1)
      rw [h] at hc
      simp [unescapeRune] at hc
    | cons d y =>
      rw [escaped_cons, escaped_cons, List.append_assoc, List.append_assoc] at h
      have hc := unescape_escaped wide c
        (x.foldl (appendEscapedRune wide) [] ++ '"' :: t1)
      have hd := unescape_escaped wide d
        (y.foldl (appendEscapedRune wide) [] ++ '"' :: t2)
      rw [h, hd] at hc
      injection hc with hc
      injection hc with hcd hrest
      obtain ⟨hxy, ht⟩ := ih y t1 t2 hrest.symm
      exact ⟨by rw [hcd, hxy], ht⟩

theorem Quote_data (wide : Nat → Bool) (x : String) :
    (Quote wide x).data = '"' :: (x.data.foldl (appendEscapedRune wide) [] ++ ['"']) := by
  simp only [Quote, appendQuotedWith, List.nil_append]
  rw [foldl_escape_buf]
  rfl

theorem foldl_join_prefix (sep : String) (l : List String) :
    ∀ p a : String,
      l.foldl (fun b s => b ++ sep ++ s) (p ++ a) = p ++ l.foldl (fun b s => b ++ sep ++ s) a := by
  induction l with
  | nil => intro p a; rfl
  | cons y l ih =>
    intro p a
    rw [List.foldl_cons, List.foldl_cons, String.append_assoc, String.append_assoc, ih,
      ← String.append_assoc]

theorem Join_cons_cons (x y : String) (l : List String) (sep : String) :
    Join (x :: y :: l) sep = x ++ sep ++ Join (y :: l) sep := by
  have hy : Join (y :: l) sep = l.foldl (fun b s => b ++ sep ++ s) y := by
    cases l <;> rfl
  rw [hy]
  show (y :: l).foldl (fun b s => b ++ sep ++ s) x = _
  rw [List.foldl_cons, foldl_join_prefix]

theorem joinQuotes_nil (wide : Nat → Bool) : (joinQuotes wide []).data = [] := rfl

theorem joinQuotes_single (wide : Nat → Bool) (x : String) :
    (joinQuotes wide [x]).data =
      '"' :: (x.data.foldl (appendEscapedRune wide) [] ++ '"' :: []) := by
  show (Quote wide x).data = _
  rw [Quote_data]

theorem joinQuotes_cons_cons (wide : Nat → Bool) (x y : String) (l : List String) :
    (joinQuotes wide (x :: y :: l)).data =
      '"' :: (x.data.foldl (appendEscapedRune wide) [] ++
        '"' :: (',' :: ' ' :: (joinQuotes wide (y :: l)).data)) := by
  show (Join (Quote wide x :: Quote wide y :: l.map (fun e => Quote wide e)) ", ").data = _
  rw [Join_cons_cons, String.data_append, String.data_append, Quote_data]
  simp only [List.cons_append, List.append_assoc, List.nil_append]
  rfl

theorem joinQuotes_data_inj (wide : Nat → Bool) :
    ∀ xs ys : List String, (joinQuotes wide xs).data = (joinQuotes wide ys).data → xs = ys := by
  intro xs
  induction xs with
  | nil =>
    intro ys h
    match ys with
    | [] => rfl
    | [y] => rw [joinQuotes_nil, joinQuotes_single] at h; exact absurd h (by simp)
    | y :: y' :: l => rw [joinQuotes_nil, joinQuotes_cons_cons] at h; exact absurd h (by simp)
  | cons x l ih =>
    intro ys h
    match l, ys, ih, h with
    | [], [], _, h => rw [joinQuotes_nil, joinQuotes_single] at h; exact absurd h (by simp)
    | _ :: _, [], _, h => rw [joinQuotes_nil, joinQuotes_cons_cons] at h; exact absurd h (by simp)
    | [], [y], _, h =>
      rw [joinQuotes_single, joinQuotes_single] at h
      obtain ⟨hxy, _⟩ := escaped_inj wide _ _ _ _ (List.cons.inj h).2
      rw [String.ext hxy]
    | [], y :: y' :: l2, _, h =>
      rw [joinQuotes_single, joinQuotes_cons_cons] at h
      obtain ⟨_, ht⟩ := escaped_inj wide _ _ _ _ (List.cons.inj h).2
      exact absurd ht (by simp)
    | x' :: l', [y], _, h =>
      rw [joinQuotes_single, joinQuotes_cons_cons] at h
      obtain ⟨_, ht⟩ := escaped_inj wide _ _ _ _ (List.cons.inj h).2
      exact absurd ht (by simp)
    | x' :: l', y :: y' :: l2, ih, h =>
      rw [joinQuotes_cons_cons, joinQuotes_cons_cons] at h
      obtain ⟨hxy, ht⟩ := escaped_inj wide _ _ _ _ (List.cons.inj h).2
      have htail : (joinQuotes wide (x' :: l')).data = (joinQuotes wide (y' :: l2)).data :=
        (List.cons.inj (List.cons.inj ht).2).2
      rw [String.ext hxy, ih (y' :: l2) htail]

/-- C14: the rendered name list is unambiguous. For all sequences `xs` and `ys`,
equal `joinQuotes` texts come from equal sequences; and two warnings built by
`NewMissingVarsWarning` with equal friendly messages carry equal data. -/
theorem joinQuotes_unambiguous (wide : Nat → Bool) :
    (∀ xs ys : List String, joinQuotes wide xs = joinQuotes wide ys → xs = ys) ∧
    (∀ xs ys : List String,
      (NewMissingVarsWarning wide xs).FriendlyMessage =
        (NewMissingVarsWarning wide ys).FriendlyMessage →
      (NewMissingVarsWarning wide xs).Data = (NewMissingVarsWarning wide ys).Data) := by
  constructor
  · intro xs ys h
    exact joinQuotes_data_inj wide xs ys (by rw [h])
  · intro xs ys h
    have hd := congrArg String.data h
    simp only [NewMissingVarsWarning, String.data_append, List.append_assoc] at hd
    have h1 := List.append_cancel_left hd
    rw [← List.append_assoc, ← List.append_assoc (joinQuotes wide ys).data] at h1
    have h2 := List.append_cancel_right h1
    have h3 := List.append_cancel_right h2
    show Payload.strings xs = Payload.strings ys
    rw [joinQuotes_data_inj wide xs ys h3]

/-- Instances of C14: the one-element list holding `a", "b` and the two-element list
`a`, `b` render differently, and the empty list renders differently from the list
holding one empty name. -/
theorem joinQuotes_unambiguous_witness :
    joinQuotes (fun _ => false) ["a\", \"b"] = "\"a\\\", \\\"b\"" ∧
      joinQuotes (fun _ => false) ["a", "b"] = "\"a\", \"b\"" ∧
      joinQuotes (fun _ => false) ["a\", \"b"] ≠ joinQuotes (fun _ => false) ["a", "b"] ∧
      joinQuotes (fun _ => false) [] ≠ joinQuotes (fun _ => false) [""] :=
  ⟨by decide, by decide,
   fun h => absurd ((joinQuotes_unambiguous (fun _ => false)).1 _ _ h) (by decide),
   fun h => absurd ((joinQuotes_unambiguous (fun _ => false)).1 _ _ h) (by decide)⟩

/-! ## The tree invariant -/

theorem update_get (h : Heap) (p : Ptr) (f : Module → Module) (q : Ptr) :
    (h.update p f)[q]? = if q = p then (h[q]?).map f else h[q]? := by
  unfold Heap.update
  cases hp : h[p]? with
  | none =>
    by_cases hq : q = p
    · rw [if_pos hq, hq, hp]; rfl
    · rw [if_neg hq]
  | some m =>
    have hlt : p < h.length := (List.getElem?_eq_some_iff.mp hp).1
    show (h.set p (f m))[q]? = _
    rw [List.getElem?_set]
    by_cases hq : q = p
    · rw [if_pos hq.symm, if_pos hlt, if_pos hq, hq, hp]; rfl
    · rw [if_neg (fun e => hq e.symm), if_neg hq]

theorem attach_get (h : Heap) (cur child q : Ptr) (m : Module) (hq : h[q]? = some m) :
    ∃ m', (attach h cur child)[q]? = some m' ∧
      m'.Parent = (if q = child then some cur else m.Parent) ∧
      m'.Modules = (if q = cur then m.Modules ++ [child] else m.Modules) := by
  unfold attach
  rw [update_get, update_get, hq]
  by_cases h1 : q = cur
  · by_cases h2 : q = child
    · simp only [if_pos h1, if_pos h2, Option.map]
      exact ⟨_, rfl, rfl, rfl⟩
    · simp only [if_pos h1, if_neg h2, Option.map]
      exact ⟨_, rfl, rfl, rfl⟩
  · by_cases h2 : q = child
    · simp only [if_neg h1, if_pos h2, Option.map]
      exact ⟨_, rfl, rfl, rfl⟩
    · simp only [if_neg h1, if_neg h2]
      exact ⟨_, rfl, rfl, rfl⟩

theorem attach_some (h : Heap) (cur child q : Ptr) (m' : Module)
    (hq : (attach h cur child)[q]? = some m') :
    ∃ m, h[q]? = some m ∧
      m'.Parent = (if q = child then some cur else m.Parent) ∧
      m'.Modules = (if q = cur then m.Modules ++ [child] else m.Modules) := by
  cases hold : h[q]? with
  | none =>
    exfalso
    unfold attach at hq
    rw [update_get, update_get, hold] at hq
    by_cases h1 : q = cur
    · by_cases h2 : q = child
      · simp only [if_pos h1, if_pos h2, Option.map] at hq
        exact Option.noConfusion hq
      · simp only [if_pos h1, if_neg h2, Option.map] at hq
        exact Option.noConfusion hq
    · by_cases h2 : q = child
      · simp only [if_neg h1, if_pos h2, Option.map] at hq
        exact Option.noConfusion hq
      · simp only [if_neg h1, if_neg h2] at hq
        exact Option.noConfusion hq
  | some m =>
    obtain ⟨m2, hm2, hp, hc⟩ := attach_get h cur child q m hold
    rw [hq] at hm2
    injection hm2 with hm2
    exact ⟨m, rfl, by rw [hm2]; exact hp, by rw [hm2]; exact hc⟩

theorem attach_preserves (h : Heap) (cur child : Ptr) (hinv : TreeInvariant h)
    (halloc : ∃ cm, h[child]? = some cm)
    (hfree : ∀ p m, h[p]? = some m → child ∈ m.Modules → p = cur)
    (hroot : child ≠ 0) : TreeInvariant (attach h cur child) := by
  obtain ⟨hkids, r, hr, hrp⟩ := hinv
  constructor
  · intro p parent' hp c hc
    obtain ⟨m, hm, _, hmods⟩ := attach_some h cur child p parent' hp
    have hold : c ∈ m.Modules → c ≠ child →
        ∃ x, (attach h cur child)[c]? = some x ∧ x.Parent = some p := by
      intro hcm hne
      obtain ⟨cm, hcm1, hcm2⟩ := hkids p m hm c hcm
      obtain ⟨x, hx, hxp, _⟩ := attach_get h cur child c cm hcm1
      exact ⟨x, hx, by rw [hxp, if_neg hne]; exact hcm2⟩
    have hnew : c = child → p = cur →
        ∃ x, (attach h cur child)[c]? = some x ∧ x.Parent = some p := by
      intro hcc hpc
      obtain ⟨cm, hcm1⟩ := halloc
      obtain ⟨x, hx, hxp, _⟩ := attach_get h cur child child cm hcm1
      exact ⟨x, by rw [hcc]; exact hx, by rw [hxp, if_pos rfl, hpc]⟩
    by_cases hpc : p = cur
    · rw [if_pos hpc] at hmods
      rw [hmods] at hc
      by_cases hcc : c = child
      · exact hnew hcc hpc
      · rcases List.mem_append.mp hc with h1 | h1
        · exact hold h1 hcc
        · exact absurd (List.mem_singleton.mp h1) hcc
    · rw [if_neg hpc] at hmods
      rw [hmods] at hc
      by_cases hcc : c = child
      · exact absurd (hfree p m hm (hcc ▸ hc)) hpc
      · exact hold hc hcc
  · obtain ⟨x, hx, hxp, _⟩ := attach_get h cur child 0 r hr
    exact ⟨x, hx, by rw [hxp, if_neg (fun e => hroot e.symm)]; exact hrp⟩

theorem invariant_append (h : Heap) (fresh : Module) (hinv : TreeInvariant h)
    (hfresh : fresh.Modules = []) : TreeInvariant (h ++ [fresh]) := by
  obtain ⟨hkids, r, hr, hrp⟩ := hinv
  have hkeep : ∀ (q : Ptr) (m : Module), h[q]? = some m → (h ++ [fresh])[q]? = some m := by
    intro q m hq
    rw [List.getElem?_append_left (List.getElem?_eq_some_iff.mp hq).1]
    exact hq
  constructor
  · intro p parent hp c hc
    by_cases hlt : p < h.length
    · rw [List.getElem?_append_left hlt] at hp
      obtain ⟨cm, hcm1, hcm2⟩ := hkids p parent hp c hc
      exact ⟨cm, hkeep c cm hcm1, hcm2⟩
    · exfalso
      rw [List.getElem?_append_right (Nat.le_of_not_lt hlt)] at hp
      have hmem := List.getElem?_mem hp
      rw [List.mem_singleton] at hmem
      rw [hmem, hfresh] at hc
      exact absurd hc (List.not_mem_nil c)
  · exact ⟨r, hkeep 0 r hr, hrp⟩

theorem soleParent_spec (h : Heap) (cur child : Ptr) (hs : soleParent h cur child = true) :
    ∀ (p : Ptr) (m : Module), h[p]? = some m → child ∈ m.Modules → p = cur := by
  intro p m hp hmem
  have hlt : p < h.length := (List.getElem?_eq_some_iff.mp hp).1
  have hall := List.all_eq_true.mp hs p (List.mem_range.mpr hlt)
  rw [hp] at hall
  exact of_decide_eq_true hall hmem

theorem resolveCall_preserves (t t' : Loader) (d : Discovered)
    (hinv : TreeInvariant t.heap) (hok : stepOk t d = true)
    (hstep : resolveCall t d = some t') : TreeInvariant t'.heap := by
  cases d with
  | created cur call data =>
    simp only [resolveCall] at hstep
    by_cases hcur : cur < t.heap.length
    · rw [if_pos hcur] at hstep
      injection hstep with hstep
      rw [← hstep]
      have hinv' := invariant_append t.heap { data with Parent := none, Modules := [] } hinv rfl
      have hpos : t.heap.length ≠ 0 := Nat.ne_of_gt (Nat.lt_of_le_of_lt (Nat.zero_le _) hcur)
      refine attach_preserves _ cur t.heap.length hinv' ⟨_, List.getElem?_concat_length _ _⟩ ?_
        hpos
      intro p m hp hmem
      exfalso
      by_cases hlt : p < t.heap.length
      · rw [List.getElem?_append_left hlt] at hp
        obtain ⟨cm, hcm, _⟩ := hinv.1 p m hp _ hmem
        have hlen := (List.getElem?_eq_some_iff.mp hcm).1
        exact Nat.lt_irrefl _ hlen
      · rw [List.getElem?_append_right (Nat.le_of_not_lt hlt)] at hp
        have hm := List.mem_singleton.mp (List.getElem?_mem hp)
        rw [hm] at hmem
        exact absurd hmem (List.not_mem_nil _)
    · rw [if_neg hcur] at hstep
      exact Option.noConfusion hstep
  | located cur call child =>
    simp only [resolveCall] at hstep
    simp only [stepOk, Bool.and_eq_true, decide_eq_true_eq] at hok
    by_cases hpre : cur < t.heap.length ∧ child < t.heap.length
    · rw [if_pos hpre] at hstep
      injection hstep with hstep
      rw [← hstep]
      have halloc : ∃ cm, t.heap[child]? = some cm :=
        ⟨_, List.getElem?_eq_some_iff.mpr ⟨hpre.2, rfl⟩⟩
      exact attach_preserves _ cur child hinv halloc
        (soleParent_spec t.heap cur child hok.2) hok.1
    · rw [if_neg hpre] at hstep
      exact Option.noConfusion hstep

theorem runLoader_preserves (ds : List Discovered) :
    ∀ (t t' : Loader), TreeInvariant t.heap → disciplined t ds = true →
      runLoader t ds = some t' → TreeInvariant t'.heap := by
  induction ds with
  | nil =>
    intro t t' hinv _ hrun
    simp only [runLoader] at hrun
    injection hrun with hrun
    rw [← hrun]; exact hinv
  | cons d ds ih =>
    intro t t' hinv hdisc hrun
    simp only [runLoader] at hrun
    simp only [disciplined, Bool.and_eq_true] at hdisc
    cases hstep : resolveCall t d with
    | none => rw [hstep] at hrun; exact Option.noConfusion hrun
    | some t1 =>
      rw [hstep] at hrun
      have hrest := hdisc.2
      rw [hstep] at hrest
      exact ih t1 t' (resolveCall_preserves t t1 d hinv hdisc.1 hstep) hrest hrun

theorem newRoot_invariant (data : Module) : TreeInvariant (newRoot data).heap := by
  constructor
  · intro p parent hp c hc
    exfalso
    have hm := List.mem_singleton.mp (List.getElem?_mem hp)
    rw [hm] at hc
    exact absurd hc (List.not_mem_nil _)
  · exact ⟨_, rfl, rfl⟩

/-- C11, as the construction of the specification has it: in every module tree that
the loader constructs (a fresh root, then the discovered module calls resolved one
by one) in which no located child is the root or is already listed under a module
other than the current one, every child `c` listed in a module's `Modules` exists
and has that module as its `Parent`, and the root module has no `Parent`. Trees
built by creating every child are among them. -/
theorem construct_TreeInvariant (root : Module) (ds : List Discovered) (t : Loader)
    (hbuilt : construct root ds = some t) (hdisc : disciplined (newRoot root) ds = true) :
    TreeInvariant t.heap :=
  runLoader_preserves ds (newRoot root) t (newRoot_invariant root) hdisc hbuilt

/-- Instance of the amended C11: the root module calls `vpc` with a count of two,
`vpc[0]` calls `db`, and a later pass locates `vpc[0]` again under the root. -/
theorem construct_TreeInvariant_witness :
    ∃ t, construct (named "root")
        [.created 0 ⟨"vpc", "./vpc", some 7, none⟩ (named "vpc[0]"),
         .created 0 ⟨"vpc", "./vpc", some 7, none⟩ (named "vpc[1]"),
         .created 1 ⟨"db", "./db", some 8, none⟩ (named "db"),
         .located 0 ⟨"vpc", "./vpc", some 7, none⟩ 1] = some t ∧
      t.heap.map (fun m => (m.Name, m.Parent, m.Modules)) =
        [("root", none, [1, 2, 1]), ("vpc[0]", some 0, [3]), ("vpc[1]", some 0, []),
         ("db", some 1, [])] ∧
      TreeInvariant t.heap :=
  ⟨_, rfl, by decide,
   construct_TreeInvariant (named "root")
     [.created 0 ⟨"vpc", "./vpc", some 7, none⟩ (named "vpc[0]"),
      .created 0 ⟨"vpc", "./vpc", some 7, none⟩ (named "vpc[1]"),
      .created 1 ⟨"db", "./db", some 8, none⟩ (named "db"),
      .located 0 ⟨"vpc", "./vpc", some 7, none⟩ 1] _ rfl (by decide)⟩

/-- C11 fails as stated. The run that creates `vpc[0]` and `vpc[1]` under the root
and then locates `vpc[0]` for a call of `vpc[1]` leaves `vpc[0]` listed in the
root's `Modules` with `vpc[1]` as its `Parent`; and a run that locates the root for
a call of a child gives the root a `Parent`. -/
theorem construct_TreeInvariant_counterexample :
    (∃ t, construct (named "root")
        [.created 0 ⟨"vpc", "./vpc", some 7, none⟩ (named "vpc[0]"),
         .created 0 ⟨"vpc", "./vpc", some 7, none⟩ (named "vpc[1]"),
         .located 2 ⟨"up", "./vpc", some 9, none⟩ 1] = some t ∧
      t.heap.map (fun m => (m.Name, m.Parent, m.Modules)) =
        [("root", none, [1, 2]), ("vpc[0]", some 2, []), ("vpc[1]", some 0, [1])] ∧
      ¬ TreeInvariant t.heap) ∧
    (∃ t, construct (named "root")
        [.created 0 ⟨"vpc", "./vpc", some 7, none⟩ (named "vpc[0]"),
         .located 1 ⟨"up", "./", some 9, none⟩ 0] = some t ∧
      t.heap.map (fun m => (m.Name, m.Parent, m.Modules)) =
        [("root", some 1, [1]), ("vpc[0]", some 0, [0])] ∧
      ¬ TreeInvariant t.heap) := by
  constructor
  · refine ⟨_, rfl, by decide, ?_⟩
    intro hinv
    obtain ⟨c, hc, hp⟩ := hinv.1 0 _ rfl 1 (by decide)
    have hc' := Option.some.inj hc
    rw [← hc'] at hp
    exact absurd hp (by decide)
  · refine ⟨_, rfl, by decide, ?_⟩
    intro hinv
    obtain ⟨r, hr, hp⟩ := hinv.2
    have hr' := Option.some.inj hr
    rw [← hr'] at hp
    exact absurd hp (by decide)

end Hcl
